import Mathlib

/-!
# GoYan85: a shallow embedding of `goyan85.go`

The yan85 virtual machine of `goyan85.go`: the instruction codec
(`Raw2Code`, `Code2Raw`), the register file and memory (`Yan85vm`), the
opcode handlers (`Interpret_*`), the dispatcher (`Interpret`), the
fetch-decode-execute loop (`Execute`), the program builder (`Yan85CatFile`)
and `main`.

Conventions of the embedding.

* A Go `byte` is a `Byte = Fin 256`.  Every arithmetic operation of the
  source on bytes is written on the underlying naturals with an explicit
  `% 256` (`toByte`), so that wrap-around is visible in the definitions.
* A Go pointer `*Reg` obtained from `GetReg` is a `RegName`; reading and
  writing through the pointer are `Yan85vm.get` and `Yan85vm.setVal`.  The
  handlers read and write in the same order as the source, so aliasing of
  two operands is preserved.
* The fixed arrays `Memory [0x100]byte` and `Code [0x300]byte` are total
  functions on `Fin 256` and `Fin 768`.
* Host calls (`syscall.Open`, `syscall.Read`, `syscall.Write`, `time.Sleep`,
  `os.Exit`) go through a record `HostOps` of functions on an abstract host
  state, and are recorded in a trace of `HostEvent`s.  `log.Printf` lines
  (diagnostic text) are not modelled; `vm.Dump()` is recorded as an event.
-/

namespace GoYan85

/-! ## Data model -/

/-- Go `byte`: an unsigned 8-bit value. -/
abbrev Byte := Fin 256

/-- Conversion `byte(n)` of a non-negative integer: reduction modulo 256. -/
def toByte (n : Nat) : Byte := ⟨n % 256, Nat.mod_lt n (by decide)⟩

/-- Go `type Reg struct { id string; val byte }`. -/
structure Reg where
  id : String
  val : Byte
deriving DecidableEq, Repr

/-- Go `type Inst struct { Op, Arg1, Arg2 byte }`. -/
structure Inst where
  Op : Byte
  Arg1 : Byte
  Arg2 : Byte
deriving DecidableEq, Repr

def Byte2RegA : Byte := 1
def Byte2RegB : Byte := 2
def Byte2RegC : Byte := 3
def Byte2RegD : Byte := 4
def Byte2RegS : Byte := 5
def Byte2RegI : Byte := 6
def Byte2RegF : Byte := 7
def InstImm : Byte := 8
def InstAdd : Byte := 9
def InstStk : Byte := 10
def InstStm : Byte := 11
def InstLdm : Byte := 12
def InstCmp : Byte := 13
def InstJmp : Byte := 14
def InstSys : Byte := 15
def IndexOp : Nat := 0
def IndexArg1 : Nat := 1
def IndexArg2 : Nat := 2
def SysOpen : Byte := 16
def SysReadCode : Byte := 17
def SysReadMem : Byte := 18
def SysWrite : Byte := 19
def SysSleep : Byte := 20
def SysExit : Byte := 21
def FlagL : Byte := 22
def FlagG : Byte := 23
def FlagE : Byte := 24
def FlagN : Byte := 25
def FlagZ : Byte := 26

/-- Go `type Yan85vm struct`.  The field `Byte2Reg map[byte]Reg` of the
source is never read or written and is left out. -/
structure Yan85vm where
  RegA : Reg
  RegB : Reg
  RegC : Reg
  RegD : Reg
  RegS : Reg
  RegI : Reg
  RegF : Reg
  RegNone : Reg
  Code : Fin 768 → Byte
  Memory : Fin 256 → Byte

/-- The target of a `*Reg` pointer into a `Yan85vm`: one of its eight
`Reg` fields. -/
inductive RegName
  | A | B | C | D | S | I | F | None
deriving DecidableEq, Repr

/-- Go `func (vm *Yan85vm) GetReg(b byte) *Reg`: the `switch` on the seven
register ids, with `&vm.RegNone` as the fall-through result. -/
def GetReg (b : Byte) : RegName :=
  if b = Byte2RegA then RegName.A
  else if b = Byte2RegB then RegName.B
  else if b = Byte2RegC then RegName.C
  else if b = Byte2RegD then RegName.D
  else if b = Byte2RegS then RegName.S
  else if b = Byte2RegI then RegName.I
  else if b = Byte2RegF then RegName.F
  else RegName.None

/-- Dereference of a register pointer. -/
def Yan85vm.get (vm : Yan85vm) : RegName → Reg
  | RegName.A => vm.RegA
  | RegName.B => vm.RegB
  | RegName.C => vm.RegC
  | RegName.D => vm.RegD
  | RegName.S => vm.RegS
  | RegName.I => vm.RegI
  | RegName.F => vm.RegF
  | RegName.None => vm.RegNone

/-- Assignment `reg.val = v` through a register pointer. -/
def Yan85vm.setVal (vm : Yan85vm) (r : RegName) (v : Byte) : Yan85vm :=
  match r with
  | RegName.A => { vm with RegA := { vm.RegA with val := v } }
  | RegName.B => { vm with RegB := { vm.RegB with val := v } }
  | RegName.C => { vm with RegC := { vm.RegC with val := v } }
  | RegName.D => { vm with RegD := { vm.RegD with val := v } }
  | RegName.S => { vm with RegS := { vm.RegS with val := v } }
  | RegName.I => { vm with RegI := { vm.RegI with val := v } }
  | RegName.F => { vm with RegF := { vm.RegF with val := v } }
  | RegName.None => { vm with RegNone := { vm.RegNone with val := v } }

/-- Assignment `vm.Memory[i] = v`. -/
def Yan85vm.setMem (vm : Yan85vm) (i : Fin 256) (v : Byte) : Yan85vm :=
  { vm with Memory := fun j => if j = i then v else vm.Memory j }

/-- The VM built by `main`: every register value 0, and the zero value of
the two arrays (the struct literal of `main` names only the registers). -/
def initVM : Yan85vm :=
  { RegA := ⟨"a", 0⟩, RegB := ⟨"b", 0⟩, RegC := ⟨"c", 0⟩, RegD := ⟨"d", 0⟩,
    RegS := ⟨"s", 0⟩, RegI := ⟨"i", 0⟩, RegF := ⟨"f", 0⟩,
    RegNone := ⟨"NONE", 0⟩,
    Code := fun _ => 0,
    Memory := fun _ => 0 }

/-! ## Instruction codec -/

/-- The `for i := 0; i < N; i += 3` loop of `Raw2Code`, started at index `i`
with the instructions appended so far in `inst`.  The loop only indexes
`b` below `N ≤ len(b)` (see `Raw2Code_index_in_range`), so the default of
`getD` is never used. -/
def Raw2Code.loop (b : List Byte) (N : Nat) (i : Nat) (inst : List Inst) : List Inst :=
  if i < N then
    Raw2Code.loop b N (i + 3)
      (inst ++ [⟨b.getD (i + IndexOp) 0, b.getD (i + IndexArg1) 0, b.getD (i + IndexArg2) 0⟩])
  else inst
termination_by N - i

/-- Go `func Raw2Code(b []byte) (inst []Inst)`. -/
def Raw2Code (b : List Byte) : List Inst :=
  Raw2Code.loop b (b.length - b.length % 3) 0 []

/-- Go `func Code2Raw(inst []Inst) (b []byte)`: each instruction appends its
three-byte `snippet` to `b`. -/
def Code2Raw (inst : List Inst) : List Byte :=
  inst.foldl (fun b v => b ++ [v.Op, v.Arg1, v.Arg2]) []

/-! ## Opcode handlers without host effects -/

/-- Go `func (vm *Yan85vm) Interpret_imm(inst Inst)`: `reg.val = imm`. -/
def Interpret_imm (vm : Yan85vm) (inst : Inst) : Yan85vm :=
  let reg := GetReg inst.Arg1
  let imm := inst.Arg2
  vm.setVal reg imm

/-- Go `func (vm *Yan85vm) Interpret_add(inst Inst)`:
`reg1.val += reg2.val`, on bytes. -/
def Interpret_add (vm : Yan85vm) (inst : Inst) : Yan85vm :=
  let reg1 := GetReg inst.Arg1
  let reg2 := GetReg inst.Arg2
  vm.setVal reg1 (toByte ((vm.get reg1).val.val + (vm.get reg2).val.val))

/-- Go `func (vm *Yan85vm) Interpret_stk(inst Inst)`.  The comparison of a
pointer with `&vm.RegNone` is the comparison of the register name with
`RegName.None`; `regS.val -= 1` on a byte is `+ 256 - 1` modulo 256. -/
def Interpret_stk (vm : Yan85vm) (inst : Inst) : Yan85vm :=
  let reg1 := GetReg inst.Arg1
  let reg2 := GetReg inst.Arg2
  let vm1 :=
    if reg2 ≠ RegName.None then
      let vmS := vm.setVal RegName.S (toByte (vm.RegS.val.val + 1))
      vmS.setMem vmS.RegS.val (vmS.get reg2).val
    else vm
  if reg1 ≠ RegName.None then
    let vmL := vm1.setVal reg1 (vm1.Memory vm1.RegS.val)
    vmL.setVal RegName.S (toByte (vmL.RegS.val.val + 256 - 1))
  else vm1

/-- Go `func (vm *Yan85vm) Interpret_stm(inst Inst)`:
`vm.Memory[reg1.val] = reg2.val`. -/
def Interpret_stm (vm : Yan85vm) (inst : Inst) : Yan85vm :=
  let reg1 := GetReg inst.Arg1
  let reg2 := GetReg inst.Arg2
  vm.setMem (vm.get reg1).val (vm.get reg2).val

/-- Go `func (vm *Yan85vm) Interpret_ldm(inst Inst)`:
`reg1.val = vm.Memory[reg2.val]`. -/
def Interpret_ldm (vm : Yan85vm) (inst : Inst) : Yan85vm :=
  let reg1 := GetReg inst.Arg1
  let reg2 := GetReg inst.Arg2
  vm.setVal reg1 (vm.Memory (vm.get reg2).val)

/-- The statement `regF.val |= flag`. -/
def Yan85vm.orFlag (vm : Yan85vm) (flag : Byte) : Yan85vm :=
  vm.setVal RegName.F (toByte (vm.RegF.val.val ||| flag.val))

/-- Go `func (vm *Yan85vm) Interpret_cmp(inst Inst)`, the state it leaves.
`regF.val = 0` comes first and each test reads the operands through their
pointers at that point of the function, as in the source.  The call
`vm.Dump()` at its end is recorded by `Interpret`. -/
def Interpret_cmp (vm : Yan85vm) (inst : Inst) : Yan85vm :=
  let reg1 := GetReg inst.Arg1
  let reg2 := GetReg inst.Arg2
  let vm0 := vm.setVal RegName.F 0
  let vm1 := if (vm0.get reg1).val < (vm0.get reg2).val then vm0.orFlag FlagL else vm0
  let vm2 := if (vm1.get reg1).val > (vm1.get reg2).val then vm1.orFlag FlagG else vm1
  let vm3 := if (vm2.get reg1).val = (vm2.get reg2).val then vm2.orFlag FlagE else vm2.orFlag FlagN
  if (vm3.get reg1).val = 0 ∧ (vm3.get reg2).val = 0 then vm3.orFlag FlagZ else vm3

/-- The condition `flag == 0 || vm.RegF.val&flag != 0` of `Interpret_jmp`. -/
def jmpTaken (vm : Yan85vm) (flag : Byte) : Prop :=
  flag = 0 ∨ vm.RegF.val.val &&& flag.val ≠ 0

instance (vm : Yan85vm) (flag : Byte) : Decidable (jmpTaken vm flag) := by
  unfold jmpTaken; infer_instance

/-- Go `func (vm *Yan85vm) Interpret_jmp(inst Inst)`. -/
def Interpret_jmp (vm : Yan85vm) (inst : Inst) : Yan85vm :=
  let reg := GetReg inst.Arg2
  let flag := inst.Arg1
  if jmpTaken vm flag then vm.setVal RegName.I (vm.get reg).val else vm

/-! ## Host interface -/

/-- The calls the VM makes to its host, in the order made. -/
inductive HostEvent
  | open (path : List Byte)
  | readCode (fd : Nat) (len : Nat)
  | readMem (fd : Nat) (len : Nat)
  | write (fd : Nat) (buf : List Byte)
  | sleep (seconds : Nat)
  | exit (code : Nat)
  | dump
deriving DecidableEq, Repr

/-- The host behind `syscall.Open`, `syscall.Read`, `syscall.Write` and
`time.Sleep`, over a host state `H`.  A result `none` is a call that
returns `err != nil`.  `sysOpen` returns the descriptor, `sysRead h fd len`
the bytes read into a buffer of length `len`, `sysWrite` the number of
bytes written. -/
structure HostOps (H : Type) where
  sysOpen : H → List Byte → Option (Nat × H)
  sysRead : H → Nat → Nat → Option (List Byte × H)
  sysWrite : H → Nat → List Byte → Option (Nat × H)
  sleep : H → Nat → H

/-- The host state together with the trace of calls made so far. -/
structure World (H : Type) where
  host : H
  trace : List HostEvent

/-- Record a host call and the host state after it. -/
def World.emit {H : Type} (w : World H) (e : HostEvent) (h : H) : World H :=
  { host := h, trace := w.trace ++ [e] }

/-- How a piece of VM code ends: it returns to its caller (`running`), the
process ends in `os.Exit(code)` (`exited`), in `log.Fatalf` (`fatal`), or in
the run-time panic of an out-of-range index (`indexPanic`). -/
inductive Result (H : Type)
  | running (vm : Yan85vm) (w : World H)
  | exited (code : Nat) (w : World H)
  | fatal (w : World H)
  | indexPanic (w : World H)

/-- Sequencing: continue with `f` if the process is still running. -/
def Result.andThen {H : Type} (r : Result H) (f : Yan85vm → World H → Result H) : Result H :=
  match r with
  | Result.running vm w => f vm w
  | Result.exited code w => Result.exited code w
  | Result.fatal w => Result.fatal w
  | Result.indexPanic w => Result.indexPanic w

/-- A block guarded by `if c { ... }`. -/
def Result.guard {H : Type} (c : Prop) [Decidable c] (f : Yan85vm → World H → Result H)
    (vm : Yan85vm) (w : World H) : Result H :=
  if c then f vm w else Result.running vm w

/-- The slice `vm.Memory[lo:hi]` as a list of bytes.  Every use below has
`lo ≤ hi ≤ 256`, so no index is out of range. -/
def Yan85vm.memSlice (vm : Yan85vm) (lo hi : Nat) : List Byte :=
  (List.range (hi - lo)).map (fun k => if h : lo + k < 256 then vm.Memory ⟨lo + k, h⟩ else 0)

/-- The host has filled the first `data.length` bytes of the buffer
`vm.Memory[off:]`. -/
def Yan85vm.fillMem (vm : Yan85vm) (off : Nat) (data : List Byte) : Yan85vm :=
  { vm with Memory := fun j =>
      if off ≤ j.val ∧ j.val < off + data.length then data.getD (j.val - off) 0 else vm.Memory j }

/-- The host has filled the first `data.length` bytes of the buffer
`vm.Code[off:]`. -/
def Yan85vm.fillCode (vm : Yan85vm) (off : Nat) (data : List Byte) : Yan85vm :=
  { vm with Code := fun j =>
      if off ≤ j.val ∧ j.val < off + data.length then data.getD (j.val - off) 0 else vm.Code j }

/-! ## The syscall handler -/

/-- The search loop of the `SysOpen` block:
`for i := start; i < len(vm.Memory); i++ { if vm.Memory[i] == 0 { end = i; break } }`,
from index `i`, with the value `end_` that `end` has before the loop; the
result is the value of `end` after the loop. -/
def sys_open.scan (mem : Fin 256 → Byte) (i : Nat) (end_ : Nat) : Nat :=
  if h : i < 256 then
    if mem ⟨i, h⟩ = 0 then i else sys_open.scan mem (i + 1) end_
  else end_
termination_by 256 - i

/-- The block `if sysFlag&SysOpen != 0 { ... }` of `Interpret_sys`. -/
def sys_open {H : Type} (ops : HostOps H) (reg : RegName) (vm : Yan85vm) (w : World H) :
    Result H :=
  let start := vm.RegA.val.val
  let end_ := sys_open.scan vm.Memory start start
  let filePath := vm.memSlice start end_
  match ops.sysOpen w.host filePath with
  | none => Result.fatal (w.emit (HostEvent.open filePath) w.host)
  | some (fd, h) =>
      Result.running (vm.setVal reg (toByte fd)) (w.emit (HostEvent.open filePath) h)

/-- The block `if sysFlag&SysReadCode != 0 { ... }` of `Interpret_sys`: the
buffer is `vm.Code[int(vm.RegB.val)*3:]`, of length `0x300 - 3*B`; the host
fills at most that many bytes. -/
def sys_read_code {H : Type} (ops : HostOps H) (reg : RegName) (vm : Yan85vm) (w : World H) :
    Result H :=
  let fd := vm.RegA.val.val
  let off := vm.RegB.val.val * 3
  let len := 0x300 - off
  match ops.sysRead w.host fd len with
  | none => Result.fatal (w.emit (HostEvent.readCode fd len) w.host)
  | some (data, h) =>
      let got := data.take len
      Result.running ((vm.fillCode off got).setVal reg (toByte got.length))
        (w.emit (HostEvent.readCode fd len) h)

/-- The block `if sysFlag&SysReadMem != 0 { ... }` of `Interpret_sys`: the
buffer is `vm.Memory[int(vm.RegB.val):]`, of length `0x100 - B`; the value
`expected` of the source is only printed. -/
def sys_read_mem {H : Type} (ops : HostOps H) (reg : RegName) (vm : Yan85vm) (w : World H) :
    Result H :=
  let fd := vm.RegA.val.val
  let off := vm.RegB.val.val
  let len := 0x100 - off
  match ops.sysRead w.host fd len with
  | none => Result.fatal (w.emit (HostEvent.readMem fd len) w.host)
  | some (data, h) =>
      let got := data.take len
      Result.running ((vm.fillMem off got).setVal reg (toByte got.length))
        (w.emit (HostEvent.readMem fd len) h)

/-- The block `if sysFlag&SysWrite != 0 { ... }` of `Interpret_sys`. -/
def sys_write {H : Type} (ops : HostOps H) (reg : RegName) (vm : Yan85vm) (w : World H) :
    Result H :=
  let fd := vm.RegA.val.val
  let n := min (0x100 - vm.RegB.val.val) vm.RegC.val.val
  let buf := vm.memSlice vm.RegB.val.val (vm.RegB.val.val + n)
  match ops.sysWrite w.host fd buf with
  | none => Result.fatal (w.emit (HostEvent.write fd buf) w.host)
  | some (res, h) =>
      Result.running (vm.setVal reg (toByte res)) (w.emit (HostEvent.write fd buf) h)

/-- The block `if sysFlag&SysSleep != 0 { ... }` of `Interpret_sys`. -/
def sys_sleep {H : Type} (ops : HostOps H) (reg : RegName) (vm : Yan85vm) (w : World H) :
    Result H :=
  let secs := vm.RegA.val.val
  Result.running (vm.setVal reg (toByte 0)) (w.emit (HostEvent.sleep secs) (ops.sleep w.host secs))

/-- The block `if sysFlag&SysExit != 0 { ... }` of `Interpret_sys`:
`os.Exit(int(vm.RegA.val))`. -/
def sys_exit {H : Type} (vm : Yan85vm) (w : World H) : Result H :=
  Result.exited vm.RegA.val.val (w.emit (HostEvent.exit vm.RegA.val.val) w.host)

/-- The call `vm.Dump()`. -/
def dumpVM {H : Type} (vm : Yan85vm) (w : World H) : Result H :=
  Result.running vm (w.emit HostEvent.dump w.host)

/-- Go `func (vm *Yan85vm) Interpret_sys(inst Inst)`: the six guarded blocks
in the order of the source, then `vm.Dump()`. -/
def Interpret_sys {H : Type} (ops : HostOps H) (vm : Yan85vm) (w : World H) (inst : Inst) :
    Result H :=
  let reg := GetReg inst.Arg2
  let sysFlag := inst.Arg1
  ((((((Result.guard (sysFlag.val &&& SysOpen.val ≠ 0) (sys_open ops reg) vm w).andThen
    (Result.guard (sysFlag.val &&& SysReadCode.val ≠ 0) (sys_read_code ops reg))).andThen
    (Result.guard (sysFlag.val &&& SysReadMem.val ≠ 0) (sys_read_mem ops reg))).andThen
    (Result.guard (sysFlag.val &&& SysWrite.val ≠ 0) (sys_write ops reg))).andThen
    (Result.guard (sysFlag.val &&& SysSleep.val ≠ 0) (sys_sleep ops reg))).andThen
    (Result.guard (sysFlag.val &&& SysExit.val ≠ 0) sys_exit)).andThen
    dumpVM

/-! ## Dispatch and the fetch-decode-execute loop -/

/-- Go `func (vm *Yan85vm) Interpret(inst Inst)`: the `switch inst.Op`, with
no `default` case.  The `vm.Dump()` that ends `Interpret_cmp` is recorded
here. -/
def Interpret {H : Type} (ops : HostOps H) (vm : Yan85vm) (w : World H) (inst : Inst) :
    Result H :=
  if inst.Op = InstImm then Result.running (Interpret_imm vm inst) w
  else if inst.Op = InstAdd then Result.running (Interpret_add vm inst) w
  else if inst.Op = InstStk then Result.running (Interpret_stk vm inst) w
  else if inst.Op = InstStm then Result.running (Interpret_stm vm inst) w
  else if inst.Op = InstLdm then Result.running (Interpret_ldm vm inst) w
  else if inst.Op = InstCmp then dumpVM (Interpret_cmp vm inst) w
  else if inst.Op = InstJmp then Result.running (Interpret_jmp vm inst) w
  else if inst.Op = InstSys then Interpret_sys ops vm w inst
  else Result.running vm w

/-- One iteration of the `for` loop of `Execute`:
`pc := int(vm.RegI.val); vm.RegI.val += byte(1); vm.Interpret(inst[pc])`.
Indexing the slice `inst` at `pc ≥ len(inst)` is a run-time panic. -/
def Execute.cycle {H : Type} (ops : HostOps H) (inst : List Inst) (vm : Yan85vm) (w : World H) :
    Result H :=
  let pc := vm.RegI.val.val
  let vm1 := vm.setVal RegName.I (toByte (vm.RegI.val.val + 1))
  match inst.get? pc with
  | none => Result.indexPanic w
  | some i => Interpret ops vm1 w i

/-- Go `func (vm *Yan85vm) Execute(inst []Inst)`: the loop never ends by
itself, so the embedding runs at most `n` iterations of it and stops early
when the process ends. -/
def Execute {H : Type} (ops : HostOps H) (inst : List Inst) : Nat → Yan85vm → World H → Result H
  | 0, vm, w => Result.running vm w
  | n + 1, vm, w => (Execute.cycle ops inst vm w).andThen (Execute ops inst n)

/-- Executing the instructions of a list one after the other with
`Interpret`, as long as the process is running. -/
def InterpretAll {H : Type} (ops : HostOps H) : List Inst → Yan85vm → World H → Result H
  | [], vm, w => Result.running vm w
  | i :: is, vm, w => (Interpret ops vm w i).andThen (InterpretAll ops is)

/-! ## Concrete inputs -/

/-- A host on which every `open`, `read` and `write` fails. -/
def nullHost : HostOps Unit :=
  { sysOpen := fun _ _ => none,
    sysRead := fun _ _ _ => none,
    sysWrite := fun _ _ _ => none,
    sleep := fun _ _ => () }

/-- The world before any host call. -/
def World.start {H : Type} (h : H) : World H := { host := h, trace := [] }

/-- The zero-initialised VM with `A = 200`, `B = 100`, `S = 255`, `F = 24`. -/
def sampleVM : Yan85vm :=
  (((initVM.setVal RegName.A 200).setVal RegName.B 100).setVal RegName.S 255).setVal RegName.F 24

/-- The zero-initialised VM with `A = v1`, `B = v2` and `D = 9`. -/
def cmpVM (v1 v2 : Byte) : Yan85vm :=
  ((initVM.setVal RegName.A v1).setVal RegName.B v2).setVal RegName.D 9

/-- The VM state a piece of code returns with, if it returns. -/
def Result.vm? {H : Type} : Result H → Option Yan85vm
  | Result.running vm _ => some vm
  | Result.exited _ _ => none
  | Result.fatal _ => none
  | Result.indexPanic _ => none

/-- The trace of host calls at the end of a piece of code. -/
def Result.trace {H : Type} : Result H → List HostEvent
  | Result.running _ w => w.trace
  | Result.exited _ w => w.trace
  | Result.fatal w => w.trace
  | Result.indexPanic w => w.trace

/-- The process ended in the run-time panic of an out-of-range index. -/
def Result.isIndexPanic {H : Type} : Result H → Bool
  | Result.indexPanic _ => true
  | Result.running _ _ => false
  | Result.exited _ _ => false
  | Result.fatal _ => false

/-- A flag counts as set in `F` when `F AND mask` is non-zero, the test of
`Interpret_jmp` and `FlagDesc`. -/
def flagSet (vm : Yan85vm) (mask : Byte) : Prop :=
  vm.RegF.val.val &&& mask.val ≠ 0

instance (vm : Yan85vm) (mask : Byte) : Decidable (flagSet vm mask) := by
  unfold flagSet; infer_instance

/-- The register an instruction writes its result to is not the sentinel:
the destination operand `arg1` of immediate-load, add and load-from-memory,
and the return-value operand `arg2` of a syscall, is a real register id. -/
def destReal (i : Inst) : Prop :=
  ((i.Op = InstImm ∨ i.Op = InstAdd ∨ i.Op = InstLdm) → 1 ≤ i.Arg1.val ∧ i.Arg1.val ≤ 7) ∧
    (i.Op = InstSys → 1 ≤ i.Arg2.val ∧ i.Arg2.val ≤ 7)

instance (i : Inst) : Decidable (destReal i) := by
  unfold destReal; infer_instance

/-- A block of VM code leaves the sentinel `RegNone` as it found it
whenever it returns. -/
def keepsNone {H : Type} (f : Yan85vm → World H → Result H) : Prop :=
  ∀ vm w vm' w', f vm w = Result.running vm' w' → vm'.RegNone = vm.RegNone

/-- A host on which every call succeeds: `open` returns the descriptor 3, a
read returns no byte, a write takes the whole buffer. -/
def okHost : HostOps Unit :=
  { sysOpen := fun _ _ => some (3, ()),
    sysRead := fun _ _ _ => some ([], ()),
    sysWrite := fun _ _ buf => some (buf.length, ()),
    sleep := fun _ _ => () }

/-- The zero-initialised VM prepared for a write of the two bytes
`104 105` at `Memory[10..11]` to descriptor 1: `A = 1`, `B = 10`, `C = 2`. -/
def sysVM : Yan85vm :=
  (((((initVM.setVal RegName.A 1).setVal RegName.B 10).setVal RegName.C 2).setMem 10 104).setMem
    11 105)

/-- A host on which every call succeeds and every read fills the whole
buffer it is given with the byte 7: `open` returns the descriptor 3, a
write takes the whole buffer. -/
def fillHost : HostOps Unit :=
  { sysOpen := fun _ _ => some (3, ()),
    sysRead := fun _ _ len => some (List.replicate len 7, ()),
    sysWrite := fun _ _ buf => some (buf.length, ()),
    sleep := fun _ _ => () }

/-- The zero-initialised VM with `B = 254` and `C = 1`: a read of one byte
into `Memory[254]` from descriptor 0. -/
def readVM : Yan85vm :=
  (initVM.setVal RegName.B 254).setVal RegName.C 1

/-- The zero-initialised VM with every Memory byte set to 65 and
`A = 250`: no zero byte from `Memory[A]` to the end of Memory. -/
def noNulVM : Yan85vm :=
  { initVM with Memory := fun _ => 65 }.setVal RegName.A 250

/-! ## The program builder and `main` -/

/-- Conversion `byte(n)` of a Go `int`: its low eight bits. -/
def byteOfInt (n : Int) : Byte := toByte (n % 256).toNat

/-- The loop `for _, v := range fn { ... }` of `Yan85CatFile` over the
runes still to come, with the instructions appended so far in `inst`:
each rune `v` appends `imm A byte(v)`, `stm B A`, `add B C`. -/
def Yan85CatFile.loop : List Nat → List Inst → List Inst
  | [], inst => inst
  | v :: rest, inst =>
      Yan85CatFile.loop rest
        (((inst ++ [⟨InstImm, Byte2RegA, toByte v⟩]) ++ [⟨InstStm, Byte2RegB, Byte2RegA⟩]) ++
          [⟨InstAdd, Byte2RegB, Byte2RegC⟩])

/-- Go `func Yan85CatFile(fn string, addr int) (inst []Inst)`.  The string
`fn` is given by the sequence of runes (code points) that `range fn`
yields; for a string of single-byte characters these are its bytes.
`fn + "\x00"` appends the rune 0. -/
def Yan85CatFile (fn : List Nat) (addr : Int) : List Inst :=
  let fn := fn ++ [0]
  let inst : List Inst := []
  let inst := inst ++ [⟨InstImm, Byte2RegC, 1⟩]
  let inst := inst ++ [⟨InstImm, Byte2RegB, byteOfInt addr⟩]
  let inst := Yan85CatFile.loop fn inst
  let inst := inst ++ [⟨InstImm, Byte2RegA, byteOfInt addr⟩]
  let inst := inst ++ [⟨InstSys, SysOpen, Byte2RegA⟩]
  let inst := inst ++ [⟨InstImm, Byte2RegB, byteOfInt addr⟩]
  let inst := inst ++ [⟨InstImm, Byte2RegC, 255⟩]
  let inst := inst ++ [⟨InstSys, SysReadMem, Byte2RegA⟩]
  let inst := inst ++ [⟨InstImm, Byte2RegA, 1⟩]
  let inst := inst ++ [⟨InstImm, Byte2RegB, byteOfInt addr⟩]
  let inst := inst ++ [⟨InstImm, Byte2RegC, 255⟩]
  let inst := inst ++ [⟨InstSys, SysWrite, Byte2RegA⟩]
  inst ++ [⟨InstSys, SysExit, 0⟩]

/-- Go `func main()`, from the bytes `b` that `os.ReadFile` returned: the
size check, the decoding, the VM of the struct literal (`initVM`) and
`vm.Execute(code)`, run for at most `n` iterations of its loop. -/
def main {H : Type} (ops : HostOps H) (b : List Byte) (n : Nat) (w : World H) : Result H :=
  if b.length > 0x300 then Result.fatal w
  else Execute ops (Raw2Code b) n initVM w

/-- A host with one readable file, of name `path` and contents `f`, opened
as descriptor 3; the host state is the number of bytes of the file already
read.  Every read and write succeeds: a read from another descriptor
returns no byte, a write takes the whole buffer. -/
def fileHost (path : List Byte) (f : List Byte) : HostOps Nat :=
  { sysOpen := fun _ p => if p = path then some (3, 0) else none,
    sysRead := fun pos fd len =>
      if fd = 3 then some ((f.drop pos).take len, pos + ((f.drop pos).take len).length)
      else some ([], pos),
    sysWrite := fun pos _ buf => some (buf.length, pos),
    sleep := fun pos _ => pos }

/-- The exit code of the process, if the code ended in `os.Exit`. -/
def Result.exitCode? {H : Type} : Result H → Option Nat
  | Result.exited code _ => some code
  | Result.running _ _ => none
  | Result.fatal _ => none
  | Result.indexPanic _ => none

/-- The state in which the program `Yan85CatFile "a" 0` reaches its first
syscall instruction: the path `a` and its NUL at `Memory[0..1]`, `A = 0`,
`B = 2`, `C = 1`, `I = 9`. -/
def catVM : Yan85vm :=
  (((((initVM.setVal RegName.C 1).setMem 0 97).setMem 1 0).setVal RegName.B 2).setVal
    RegName.A 0).setVal RegName.I 9

/-- A path of 84 characters `a`. -/
def longPath : List Nat := List.replicate 84 97

/-- An instruction that makes no host call: any opcode but compare (which
dumps the state) and syscall. -/
def Inst.quiet (i : Inst) : Bool := decide (i.Op ≠ InstCmp ∧ i.Op ≠ InstSys)

/-- An instruction of the straight-line part of a generated program: an
immediate-load, add or store-to-memory whose register operands are among
`A`, `B`, `C`. -/
def Inst.abc (i : Inst) : Prop :=
  (i.Op = InstImm ∨ i.Op = InstAdd ∨ i.Op = InstStm) ∧
    (i.Arg1 = Byte2RegA ∨ i.Arg1 = Byte2RegB ∨ i.Arg1 = Byte2RegC) ∧
    (i.Op = InstImm ∨ i.Arg2 = Byte2RegA ∨ i.Arg2 = Byte2RegB ∨ i.Arg2 = Byte2RegC)

instance (i : Inst) : Decidable i.abc := by
  unfold Inst.abc; infer_instance

/-- The instructions of `Yan85CatFile fn addr` before its first syscall
instruction: `imm C 1`, `imm B addr`, the three instructions for each rune
of `fn` and for the final 0, and `imm A addr`. -/
def catfileStraight (fn : List Nat) (addr : Int) : List Inst :=
  ([⟨InstImm, Byte2RegC, 1⟩, ⟨InstImm, Byte2RegB, byteOfInt addr⟩] ++
      Yan85CatFile.loop (fn ++ [0]) []) ++ [⟨InstImm, Byte2RegA, byteOfInt addr⟩]

/-! ## The instruction codec: lemmas -/

theorem Raw2Code.loop_eq (b : List Byte) (k : Nat) : ∀ (i : Nat) (acc : List Inst),
    Raw2Code.loop b (i + 3 * k) i acc =
      acc ++ (List.range k).map (fun j =>
        Inst.mk (b.getD (i + 3 * j) 0) (b.getD (i + 3 * j + 1) 0) (b.getD (i + 3 * j + 2) 0)) := by
  induction k with
  | zero =>
    intro i acc
    rw [Raw2Code.loop]
    simp
  | succ k ih =>
    intro i acc
    rw [Raw2Code.loop]
    have h : i < i + 3 * (k + 1) := by omega
    rw [if_pos h]
    have e : i + 3 * (k + 1) = (i + 3) + 3 * k := by omega
    rw [e, ih, List.range_succ_eq_map, List.map_cons, List.map_map, List.append_assoc]
    congr 1
    simp only [IndexOp, IndexArg1, IndexArg2, List.singleton_append, Nat.add_zero, Nat.mul_zero]
    congr 1
    apply List.map_congr_left
    intro j _
    simp only [Function.comp, Nat.succ_eq_add_one]
    have e1 : i + 3 + 3 * j = i + 3 * (j + 1) := by omega
    rw [e1]

/-- The decoder on an input of length at least `3 * k` whose loop bound is
`3 * k`: the `k` consecutive three-byte groups, in order. -/
theorem Raw2Code_eq_map (b : List Byte) :
    Raw2Code b = (List.range (b.length / 3)).map (fun j =>
        Inst.mk (b.getD (3 * j) 0) (b.getD (3 * j + 1) 0) (b.getD (3 * j + 2) 0)) := by
  unfold Raw2Code
  have e : b.length - b.length % 3 = 0 + 3 * (b.length / 3) := by omega
  rw [e, Raw2Code.loop_eq]
  simp

theorem Code2Raw.foldl_eq (l : List Inst) : ∀ acc : List Byte,
    l.foldl (fun b v => b ++ [v.Op, v.Arg1, v.Arg2]) acc = acc ++ Code2Raw l := by
  induction l with
  | nil => intro acc; simp [Code2Raw]
  | cons v l ih =>
    intro acc
    unfold Code2Raw
    rw [List.foldl_cons, List.foldl_cons, ih, ih ([] ++ [v.Op, v.Arg1, v.Arg2])]
    simp

theorem Code2Raw_append (l₁ l₂ : List Inst) :
    Code2Raw (l₁ ++ l₂) = Code2Raw l₁ ++ Code2Raw l₂ := by
  unfold Code2Raw
  rw [List.foldl_append, Code2Raw.foldl_eq]
  rfl

theorem Code2Raw_singleton (v : Inst) : Code2Raw [v] = [v.Op, v.Arg1, v.Arg2] := by
  simp [Code2Raw]

/-- Encoding the first `k` three-byte groups of `b` gives back the first
`3 * k` bytes of `b`. -/
theorem Code2Raw_map_groups (b : List Byte) (k : Nat) (hk : 3 * k ≤ b.length) :
    Code2Raw ((List.range k).map (fun j =>
        Inst.mk (b.getD (3 * j) 0) (b.getD (3 * j + 1) 0) (b.getD (3 * j + 2) 0)))
      = b.take (3 * k) := by
  induction k with
  | zero => simp [Code2Raw]
  | succ k ih =>
    have h0 : 3 * k < b.length := by omega
    have h1 : 3 * k + 1 < b.length := by omega
    have h2 : 3 * k + 2 < b.length := by omega
    rw [List.range_succ, List.map_append, Code2Raw_append, ih (by omega), List.map_singleton,
      Code2Raw_singleton]
    have e : 3 * (k + 1) = 3 * k + 1 + 1 + 1 := by omega
    rw [e, List.take_succ, List.take_succ, List.take_succ,
      List.getElem?_eq_getElem h0, List.getElem?_eq_getElem h1, List.getElem?_eq_getElem h2,
      List.getD_eq_getElem _ _ h0, List.getD_eq_getElem _ _ h1, List.getD_eq_getElem _ _ h2]
    simp only [Option.toList, List.append_assoc, List.cons_append, List.nil_append]

/-- Every index the loop of `Raw2Code` reads is inside the slice: an index
`i + 2` with `i < N`, `i` a multiple of 3 and `N = len(b) - len(b) % 3`. -/
theorem Raw2Code_index_in_range (b : List Byte) (j : Nat)
    (h : 3 * j < b.length - b.length % 3) : 3 * j + IndexArg2 < b.length := by
  unfold IndexArg2
  omega

/-! ## Claims -/

/-- C1: for every byte sequence `b` whose length is a multiple of 3,
`Code2Raw (Raw2Code b)` equals `b`. -/
theorem C1_Code2Raw_Raw2Code (b : List Byte) (h : b.length % 3 = 0) :
    Code2Raw (Raw2Code b) = b := by
  rw [Raw2Code_eq_map, Code2Raw_map_groups b (b.length / 3) (by omega)]
  apply List.take_of_length_le
  omega

/-- Witness of C1 on the six bytes `8 1 5 9 1 1`. -/
theorem C1_Code2Raw_Raw2Code_witness :
    ([8, 1, 5, 9, 1, 1] : List Byte).length % 3 = 0 ∧
      Code2Raw (Raw2Code [8, 1, 5, 9, 1, 1]) = [8, 1, 5, 9, 1, 1] :=
  ⟨by decide, C1_Code2Raw_Raw2Code [8, 1, 5, 9, 1, 1] (by decide)⟩

/-! ## Registers: lemmas -/

theorem real_reg_cases (b : Byte) (h1 : 1 ≤ b.val) (h7 : b.val ≤ 7) :
    b = Byte2RegA ∨ b = Byte2RegB ∨ b = Byte2RegC ∨ b = Byte2RegD ∨ b = Byte2RegS ∨
      b = Byte2RegI ∨ b = Byte2RegF := by
  have h : b.val = 1 ∨ b.val = 2 ∨ b.val = 3 ∨ b.val = 4 ∨ b.val = 5 ∨ b.val = 6 ∨ b.val = 7 := by
    omega
  rcases h with h | h | h | h | h | h | h
  · exact Or.inl (Fin.ext h)
  · exact Or.inr (Or.inl (Fin.ext h))
  · exact Or.inr (Or.inr (Or.inl (Fin.ext h)))
  · exact Or.inr (Or.inr (Or.inr (Or.inl (Fin.ext h))))
  · exact Or.inr (Or.inr (Or.inr (Or.inr (Or.inl (Fin.ext h)))))
  · exact Or.inr (Or.inr (Or.inr (Or.inr (Or.inr (Or.inl (Fin.ext h))))))
  · exact Or.inr (Or.inr (Or.inr (Or.inr (Or.inr (Or.inr (Fin.ext h))))))

theorem GetReg_ne_None (b : Byte) (h1 : 1 ≤ b.val) (h7 : b.val ≤ 7) :
    GetReg b ≠ RegName.None := by
  rcases real_reg_cases b h1 h7 with h | h | h | h | h | h | h <;> subst h <;> decide

theorem GetReg_eq_None (b : Byte) (h : b.val = 0 ∨ 7 < b.val) : GetReg b = RegName.None := by
  have e : ∀ c : Byte, c.val ≤ 7 → 1 ≤ c.val → ¬ b = c := by
    intro c hc7 hc1 hbc
    subst hbc
    omega
  unfold GetReg
  rw [if_neg (e _ (by decide) (by decide)), if_neg (e _ (by decide) (by decide)),
    if_neg (e _ (by decide) (by decide)), if_neg (e _ (by decide) (by decide)),
    if_neg (e _ (by decide) (by decide)), if_neg (e _ (by decide) (by decide)),
    if_neg (e _ (by decide) (by decide))]

theorem GetReg_inj (a b : Byte) (ha1 : 1 ≤ a.val) (ha7 : a.val ≤ 7) (hb1 : 1 ≤ b.val)
    (hb7 : b.val ≤ 7) (h : GetReg a = GetReg b) : a = b := by
  rcases real_reg_cases a ha1 ha7 with h1 | h1 | h1 | h1 | h1 | h1 | h1 <;>
  rcases real_reg_cases b hb1 hb7 with h2 | h2 | h2 | h2 | h2 | h2 | h2 <;>
  subst h1 <;> subst h2 <;>
  first
  | rfl
  | exact absurd h (by decide)

theorem GetReg_eq_S (b : Byte) (h : GetReg b = RegName.S) : b = Byte2RegS := by
  unfold GetReg at h
  repeat' split at h
  all_goals first | assumption | cases h

@[simp] theorem get_setVal_same (vm : Yan85vm) (r : RegName) (v : Byte) :
    (vm.setVal r v).get r = { id := (vm.get r).id, val := v } := by
  cases r <;> rfl

theorem get_setVal_ne (vm : Yan85vm) (r r' : RegName) (v : Byte) (h : r' ≠ r) :
    (vm.setVal r v).get r' = vm.get r' := by
  cases r <;> cases r' <;> first | rfl | exact absurd rfl h

@[simp] theorem Memory_setVal (vm : Yan85vm) (r : RegName) (v : Byte) :
    (vm.setVal r v).Memory = vm.Memory := by
  cases r <;> rfl

@[simp] theorem Code_setVal (vm : Yan85vm) (r : RegName) (v : Byte) :
    (vm.setVal r v).Code = vm.Code := by
  cases r <;> rfl

@[simp] theorem get_setMem (vm : Yan85vm) (i : Fin 256) (v : Byte) (r : RegName) :
    (vm.setMem i v).get r = vm.get r := by
  cases r <;> rfl

@[simp] theorem Code_setMem (vm : Yan85vm) (i : Fin 256) (v : Byte) :
    (vm.setMem i v).Code = vm.Code := rfl

@[simp] theorem Memory_setMem_same (vm : Yan85vm) (i : Fin 256) (v : Byte) :
    (vm.setMem i v).Memory i = v := by
  simp [Yan85vm.setMem]

theorem Memory_setMem_ne (vm : Yan85vm) (i j : Fin 256) (v : Byte) (h : j ≠ i) :
    (vm.setMem i v).Memory j = vm.Memory j := by
  simp [Yan85vm.setMem, h]

theorem RegNone_setVal (vm : Yan85vm) (r : RegName) (v : Byte) (h : r ≠ RegName.None) :
    (vm.setVal r v).RegNone = vm.RegNone := by
  cases r <;> first | rfl | exact absurd rfl h

theorem RegNone_setMem (vm : Yan85vm) (i : Fin 256) (v : Byte) :
    (vm.setMem i v).RegNone = vm.RegNone := rfl

theorem RegS_eq_get (vm : Yan85vm) : vm.RegS = vm.get RegName.S := rfl

theorem RegF_eq_get (vm : Yan85vm) : vm.RegF = vm.get RegName.F := rfl

theorem RegI_eq_get (vm : Yan85vm) : vm.RegI = vm.get RegName.I := rfl

/-! ## Dispatch: lemmas -/

theorem Interpret_imm_eq {H : Type} (ops : HostOps H) (vm : Yan85vm) (w : World H)
    (a1 a2 : Byte) :
    Interpret ops vm w ⟨InstImm, a1, a2⟩ = Result.running (Interpret_imm vm ⟨InstImm, a1, a2⟩) w := by
  simp [Interpret]

theorem Interpret_add_eq {H : Type} (ops : HostOps H) (vm : Yan85vm) (w : World H)
    (a1 a2 : Byte) :
    Interpret ops vm w ⟨InstAdd, a1, a2⟩ = Result.running (Interpret_add vm ⟨InstAdd, a1, a2⟩) w := by
  simp [Interpret, InstAdd, InstImm]

theorem Interpret_stk_eq {H : Type} (ops : HostOps H) (vm : Yan85vm) (w : World H)
    (a1 a2 : Byte) :
    Interpret ops vm w ⟨InstStk, a1, a2⟩ = Result.running (Interpret_stk vm ⟨InstStk, a1, a2⟩) w := by
  simp [Interpret, InstStk, InstAdd, InstImm]

theorem Interpret_stm_eq {H : Type} (ops : HostOps H) (vm : Yan85vm) (w : World H)
    (a1 a2 : Byte) :
    Interpret ops vm w ⟨InstStm, a1, a2⟩ = Result.running (Interpret_stm vm ⟨InstStm, a1, a2⟩) w := by
  simp [Interpret, InstStm, InstStk, InstAdd, InstImm]

theorem Interpret_ldm_eq {H : Type} (ops : HostOps H) (vm : Yan85vm) (w : World H)
    (a1 a2 : Byte) :
    Interpret ops vm w ⟨InstLdm, a1, a2⟩ = Result.running (Interpret_ldm vm ⟨InstLdm, a1, a2⟩) w := by
  simp [Interpret, InstLdm, InstStm, InstStk, InstAdd, InstImm]

theorem Interpret_cmp_eq {H : Type} (ops : HostOps H) (vm : Yan85vm) (w : World H)
    (a1 a2 : Byte) :
    Interpret ops vm w ⟨InstCmp, a1, a2⟩ = dumpVM (Interpret_cmp vm ⟨InstCmp, a1, a2⟩) w := by
  simp [Interpret, InstCmp, InstLdm, InstStm, InstStk, InstAdd, InstImm]

theorem Interpret_jmp_eq {H : Type} (ops : HostOps H) (vm : Yan85vm) (w : World H)
    (a1 a2 : Byte) :
    Interpret ops vm w ⟨InstJmp, a1, a2⟩ = Result.running (Interpret_jmp vm ⟨InstJmp, a1, a2⟩) w := by
  simp [Interpret, InstJmp, InstCmp, InstLdm, InstStm, InstStk, InstAdd, InstImm]

/-! ## Claims on the handlers -/

/-- C2: a jump instruction (opcode 14) with flag operand `arg1` and target
operand `arg2` yields the input state with `I` set to the value of the
register named by `arg2` when `arg1` is 0 or `arg1 AND F` is non-zero, and
the input state itself otherwise; with `arg1 = 0` it sets `I` whatever `F`
holds.  No host call is made. -/
theorem C2_jmp_sets_I_iff_flag {H : Type} (ops : HostOps H) (vm : Yan85vm) (w : World H)
    (arg1 arg2 : Byte) :
    Interpret ops vm w ⟨InstJmp, arg1, arg2⟩ =
        (if arg1 = 0 ∨ arg1.val &&& vm.RegF.val.val ≠ 0 then
          Result.running
            { vm with RegI := { id := vm.RegI.id, val := (vm.get (GetReg arg2)).val } } w
        else Result.running vm w) ∧
      Interpret ops vm w ⟨InstJmp, 0, arg2⟩ =
        Result.running
          { vm with RegI := { id := vm.RegI.id, val := (vm.get (GetReg arg2)).val } } w := by
  constructor
  · rw [Interpret_jmp_eq]
    simp only [Interpret_jmp, jmpTaken, Nat.land_comm vm.RegF.val.val arg1.val]
    split <;> rfl
  · rw [Interpret_jmp_eq]
    simp [Interpret_jmp, jmpTaken, Yan85vm.setVal]

theorem toByte_succ_pred (s : Byte) : toByte ((toByte (s.val + 1)).val + 256 - 1) = s := by
  apply Fin.ext
  have hs := s.isLt
  simp only [toByte]
  omega

theorem GetReg_ne_S (b : Byte) (h : b ≠ Byte2RegS) : GetReg b ≠ RegName.S :=
  fun e => h (GetReg_eq_S b e)

/-- C6: for real register operands `arg1`, `arg2` (ids 1..7, possibly
equal) holding `v1` and `v2`, the add instruction leaves the first register
holding `(v1 + v2) mod 256`, every other register as it was (the second one
too when the two differ), and Memory and Code unchanged; no host call is
made. -/
theorem C6_add_wraps_mod_256 {H : Type} (ops : HostOps H) (vm : Yan85vm) (w : World H)
    (arg1 arg2 : Byte) (h1 : 1 ≤ arg1.val ∧ arg1.val ≤ 7) (h2 : 1 ≤ arg2.val ∧ arg2.val ≤ 7) :
    ∃ vm', Interpret ops vm w ⟨InstAdd, arg1, arg2⟩ = Result.running vm' w ∧
      (vm'.get (GetReg arg1)).val.val =
        ((vm.get (GetReg arg1)).val.val + (vm.get (GetReg arg2)).val.val) % 256 ∧
      (vm'.get (GetReg arg1)).id = (vm.get (GetReg arg1)).id ∧
      (∀ r : RegName, r ≠ GetReg arg1 → vm'.get r = vm.get r) ∧
      (arg1 ≠ arg2 → vm'.get (GetReg arg2) = vm.get (GetReg arg2)) ∧
      vm'.Memory = vm.Memory ∧ vm'.Code = vm.Code := by
  refine ⟨Interpret_add vm ⟨InstAdd, arg1, arg2⟩, Interpret_add_eq ops vm w arg1 arg2, ?_, ?_, ?_,
    ?_, ?_, ?_⟩
  · simp [Interpret_add, toByte]
  · simp [Interpret_add]
  · intro r hr
    exact get_setVal_ne vm _ r _ hr
  · intro hne
    apply get_setVal_ne
    intro e
    exact hne (GetReg_inj arg1 arg2 h1.1 h1.2 h2.1 h2.2 e.symm)
  · simp [Interpret_add]
  · simp [Interpret_add]

/-- Witness of C6: `A = 200`, `B = 100`, `add A B` leaves `A = 44`. -/
theorem C6_add_wraps_mod_256_witness :
    ∃ vm', Interpret nullHost sampleVM (World.start ()) ⟨InstAdd, 1, 2⟩
        = Result.running vm' (World.start ()) ∧
      vm'.RegA.val.val = 44 ∧ vm'.RegB.val.val = 100 := by
  obtain ⟨vm', h, hv, -, -, hb, -, -⟩ :=
    C6_add_wraps_mod_256 nullHost sampleVM (World.start ()) 1 2 (by decide) (by decide)
  exact ⟨vm', h, hv, congrArg (fun r => r.val.val) (hb (by decide))⟩

/-- C7: for real registers `arg1`, `arg2` other than `S`, with stack
pointer value `s` and `v` the value of the register `arg2`, one stack-op
instruction leaves the register `arg1` holding `v`, `Memory[(s+1) mod 256]`
holding `v`, the stack pointer equal to `s`, and every other Memory byte
unchanged. -/
theorem C7_stk_push_then_pop {H : Type} (ops : HostOps H) (vm : Yan85vm) (w : World H)
    (arg1 arg2 : Byte)
    (h1 : 1 ≤ arg1.val ∧ arg1.val ≤ 7 ∧ arg1 ≠ Byte2RegS)
    (h2 : 1 ≤ arg2.val ∧ arg2.val ≤ 7 ∧ arg2 ≠ Byte2RegS) :
    ∃ vm', Interpret ops vm w ⟨InstStk, arg1, arg2⟩ = Result.running vm' w ∧
      (vm'.get (GetReg arg1)).val = (vm.get (GetReg arg2)).val ∧
      vm'.Memory ⟨(vm.RegS.val.val + 1) % 256, Nat.mod_lt _ (by decide)⟩
        = (vm.get (GetReg arg2)).val ∧
      vm'.RegS.val = vm.RegS.val ∧
      ∀ j : Fin 256, j.val ≠ (vm.RegS.val.val + 1) % 256 → vm'.Memory j = vm.Memory j := by
  refine ⟨Interpret_stk vm ⟨InstStk, arg1, arg2⟩, Interpret_stk_eq ops vm w arg1 arg2, ?_⟩
  have hr1 : GetReg arg1 ≠ RegName.None := GetReg_ne_None arg1 h1.1 h1.2.1
  have hr2 : GetReg arg2 ≠ RegName.None := GetReg_ne_None arg2 h2.1 h2.2.1
  have hs1 : GetReg arg1 ≠ RegName.S := GetReg_ne_S arg1 h1.2.2
  have hs2 : GetReg arg2 ≠ RegName.S := GetReg_ne_S arg2 h2.2.2
  have hS1 : RegName.S ≠ GetReg arg1 := fun e => hs1 e.symm
  have hS2 : GetReg arg2 ≠ RegName.S := hs2
  simp only [Interpret_stk, if_pos hr1, if_pos hr2]
  simp only [RegS_eq_get, get_setVal_same, get_setMem, Memory_setVal, Memory_setMem_same,
    get_setVal_ne _ _ _ _ hS1, get_setVal_ne _ _ _ _ hS2, get_setVal_ne _ _ _ _ hs1,
    toByte_succ_pred]
  refine ⟨trivial, ?_, trivial, ?_⟩
  · simp [Yan85vm.setMem, toByte]
  · intro j hj
    apply Memory_setMem_ne
    intro e
    apply hj
    rw [e]
    rfl

/-- Witness of C7: with `S = 255`, the instruction `stk D A` wraps the stack
pointer to 0, stores `A = 200` at `Memory[0]` and leaves `D = 200`,
`S = 255`. -/
theorem C7_stk_push_then_pop_witness :
    ∃ vm', Interpret nullHost sampleVM (World.start ()) ⟨InstStk, 4, 1⟩
        = Result.running vm' (World.start ()) ∧
      vm'.RegD.val = 200 ∧ vm'.Memory 0 = 200 ∧ vm'.RegS.val = 255 := by
  obtain ⟨vm', h, hd, hm, hs, -⟩ :=
    C7_stk_push_then_pop nullHost sampleVM (World.start ()) 4 1 (by decide) (by decide)
  exact ⟨vm', h, hd, hm, hs⟩

/-- C8: for a literal `v`, an address `a`, two distinct real registers `rv`
and `ra` and a real register `rd`, executing in order `imm rv v`,
`imm ra a`, `stm ra rv`, `ldm rd ra` leaves the register `rd` holding `v`
and `Memory[a]` holding `v`, with every other Memory byte unchanged; the
sentinel keeps its value and no host call is made. -/
theorem C8_imm_stm_ldm_roundtrip {H : Type} (ops : HostOps H) (vm : Yan85vm) (w : World H)
    (v a rv ra rd : Byte)
    (hrv : 1 ≤ rv.val ∧ rv.val ≤ 7) (hra : 1 ≤ ra.val ∧ ra.val ≤ 7)
    (hrd : 1 ≤ rd.val ∧ rd.val ≤ 7) (hne : rv ≠ ra) :
    ∃ vm', InterpretAll ops
          [⟨InstImm, rv, v⟩, ⟨InstImm, ra, a⟩, ⟨InstStm, ra, rv⟩, ⟨InstLdm, rd, ra⟩] vm w
        = Result.running vm' w ∧
      (vm'.get (GetReg rd)).val = v ∧
      vm'.Memory a = v ∧
      (∀ j : Fin 256, j ≠ a → vm'.Memory j = vm.Memory j) ∧
      vm'.RegNone = vm.RegNone := by
  have hreg : GetReg rv ≠ GetReg ra := fun e =>
    hne (GetReg_inj rv ra hrv.1 hrv.2 hra.1 hra.2 e)
  refine ⟨Interpret_ldm (Interpret_stm (Interpret_imm (Interpret_imm vm ⟨InstImm, rv, v⟩)
    ⟨InstImm, ra, a⟩) ⟨InstStm, ra, rv⟩) ⟨InstLdm, rd, ra⟩, ?_, ?_, ?_, ?_, ?_⟩
  · simp only [InterpretAll, Interpret_imm_eq, Interpret_stm_eq, Interpret_ldm_eq,
      Result.andThen]
  · simp only [Interpret_ldm, Interpret_stm, Interpret_imm, get_setVal_same, get_setMem,
      Memory_setMem_same, get_setVal_ne _ _ _ _ hreg]
  · simp only [Interpret_ldm, Interpret_stm, Interpret_imm, get_setVal_same, get_setMem,
      Memory_setVal, Memory_setMem_same, get_setVal_ne _ _ _ _ hreg]
  · intro j hj
    simp only [Interpret_ldm, Interpret_stm, Interpret_imm, get_setVal_same, get_setMem,
      Memory_setVal, get_setVal_ne _ _ _ _ hreg]
    rw [Memory_setMem_ne _ _ _ _ hj, Memory_setVal, Memory_setVal]
  · simp only [Interpret_ldm, Interpret_stm, Interpret_imm]
    rw [RegNone_setVal _ _ _ (GetReg_ne_None rd hrd.1 hrd.2), RegNone_setMem,
      RegNone_setVal _ _ _ (GetReg_ne_None ra hra.1 hra.2),
      RegNone_setVal _ _ _ (GetReg_ne_None rv hrv.1 hrv.2)]

/-- Witness of C8: the literal 77 through address 9 with `rv = A`,
`ra = B`, `rd = D`. -/
theorem C8_imm_stm_ldm_roundtrip_witness :
    ∃ vm', InterpretAll nullHost
          [⟨InstImm, 1, 77⟩, ⟨InstImm, 2, 9⟩, ⟨InstStm, 2, 1⟩, ⟨InstLdm, 4, 2⟩]
          sampleVM (World.start ())
        = Result.running vm' (World.start ()) ∧
      vm'.RegD.val = 77 ∧ vm'.Memory 9 = 77 := by
  obtain ⟨vm', h, hd, hm, -, -⟩ :=
    C8_imm_stm_ldm_roundtrip nullHost sampleVM (World.start ()) 77 9 1 2 4
      (by decide) (by decide) (by decide) (by decide)
  exact ⟨vm', h, hd, hm⟩

/-! ## The flag constants

`FlagL .. FlagZ` are the consecutive integers 22 .. 26, which share bits
(all of them have bits 16 and, but for `FlagE`, bit 2 or bit 1 in common),
while `Interpret_cmp`, `Interpret_jmp` and `FlagDesc` use them as masks of
independent bits. -/

/-- The flag register after `cmp A B` for the four kinds of operand pair. -/
theorem Interpret_cmp_samples :
    (Interpret_cmp (cmpVM 3 5) ⟨InstCmp, 1, 2⟩).RegF.val = 31 ∧
      (Interpret_cmp (cmpVM 5 3) ⟨InstCmp, 1, 2⟩).RegF.val = 31 ∧
      (Interpret_cmp (cmpVM 5 5) ⟨InstCmp, 1, 2⟩).RegF.val = 24 ∧
      (Interpret_cmp (cmpVM 0 0) ⟨InstCmp, 1, 2⟩).RegF.val = 26 := by
  decide

/-- After `cmp A B` the flag register holds 31 (operands differ), 26 (both
are 0) or 24 (equal and non-zero), whatever it held before. -/
theorem Interpret_cmp_RegF (vm : Yan85vm) :
    (Interpret_cmp vm ⟨InstCmp, Byte2RegA, Byte2RegB⟩).RegF.val =
      if vm.RegA.val = vm.RegB.val then (if vm.RegA.val = 0 then 26 else 24) else 31 := by
  have hA : GetReg Byte2RegA = RegName.A := by decide
  have hB : GetReg Byte2RegB = RegName.B := by decide
  simp only [Interpret_cmp, hA, hB, Yan85vm.orFlag, Yan85vm.setVal, Yan85vm.get]
  rcases lt_trichotomy vm.RegA.val vm.RegB.val with h | h | h
  · have h1 : ¬ vm.RegA.val > vm.RegB.val := not_lt.mpr (le_of_lt h)
    have h2 : ¬ vm.RegA.val = vm.RegB.val := ne_of_lt h
    have h3 : ¬ (vm.RegA.val = 0 ∧ vm.RegB.val = 0) := fun e => h2 (e.1.trans e.2.symm)
    simp only [if_pos h, if_neg h1, if_neg h2, if_neg h3]
    decide
  · by_cases hz : vm.RegA.val = 0
    · have hz' : vm.RegB.val = 0 := h ▸ hz
      simp only [h, lt_irrefl, gt_iff_lt, if_false, if_true, hz', and_self]
      decide
    · have h3 : ¬ (vm.RegA.val = 0 ∧ vm.RegB.val = 0) := fun e => hz e.1
      have hz' : ¬ vm.RegB.val = 0 := h ▸ hz
      simp only [h, lt_irrefl, gt_iff_lt, if_false, if_true, hz', and_self]
      decide
  · have h1 : ¬ vm.RegA.val < vm.RegB.val := not_lt.mpr (le_of_lt h)
    have h2 : ¬ vm.RegA.val = vm.RegB.val := (ne_of_lt h).symm
    have h3 : ¬ (vm.RegA.val = 0 ∧ vm.RegB.val = 0) := fun e => h2 (e.1.trans e.2.symm)
    have h' : vm.RegA.val > vm.RegB.val := h
    simp only [if_pos h', if_neg h1, if_neg h2, if_neg h3]
    decide

/-- After `cmp A B` each of the five flag masks tests as set, for every pair
of operand values: the values 24, 26 and 31 of the flag register all share
a bit with each of 22 .. 26. -/
theorem Interpret_cmp_every_flag_set (vm : Yan85vm) :
    flagSet (Interpret_cmp vm ⟨InstCmp, Byte2RegA, Byte2RegB⟩) FlagL ∧
      flagSet (Interpret_cmp vm ⟨InstCmp, Byte2RegA, Byte2RegB⟩) FlagG ∧
      flagSet (Interpret_cmp vm ⟨InstCmp, Byte2RegA, Byte2RegB⟩) FlagE ∧
      flagSet (Interpret_cmp vm ⟨InstCmp, Byte2RegA, Byte2RegB⟩) FlagN ∧
      flagSet (Interpret_cmp vm ⟨InstCmp, Byte2RegA, Byte2RegB⟩) FlagZ := by
  simp only [flagSet, Interpret_cmp_RegF]
  split
  · split <;> decide
  · decide

/-- C3, the code at the failing inputs: with `A = 5`, `B = 3`, `D = 9` and
`I = 0`, `cmp A B` followed by `jmp FlagL D` leaves `I = 9`, so the jump on
Less is taken although `5 < 3` is false; with `A = 3`, `B = 5`,
`cmp A B` followed by `jmp FlagG D` leaves `I = 9`, so the jump on Greater
is taken although `3 > 5` is false. -/
theorem C3_jmp_on_Less_taken_when_greater :
    ((InterpretAll nullHost [⟨InstCmp, 1, 2⟩, ⟨InstJmp, FlagL, 4⟩] (cmpVM 5 3)
          (World.start ())).vm?.map (fun vm => vm.RegI.val) = some 9 ∧
        (cmpVM 5 3).RegI.val = 0 ∧ ¬ (cmpVM 5 3).RegA.val < (cmpVM 5 3).RegB.val) ∧
      ((InterpretAll nullHost [⟨InstCmp, 1, 2⟩, ⟨InstJmp, FlagG, 4⟩] (cmpVM 3 5)
          (World.start ())).vm?.map (fun vm => vm.RegI.val) = some 9 ∧
        (cmpVM 3 5).RegI.val = 0 ∧ ¬ (cmpVM 3 5).RegA.val > (cmpVM 3 5).RegB.val) := by
  decide

/-- C4, the code at the failing inputs: after `cmp A B` with `A = 3`,
`B = 5` the flag register holds 31 and Equal tests as set together with
NotEqual although `3 ≠ 5`; with `A = B = 5` it holds 24 and NotEqual tests
as set together with Equal although `5 = 5`. -/
theorem C4_cmp_sets_Equal_and_NotEqual :
    ((Interpret_cmp (cmpVM 3 5) ⟨InstCmp, 1, 2⟩).RegF.val = 31 ∧
        flagSet (Interpret_cmp (cmpVM 3 5) ⟨InstCmp, 1, 2⟩) FlagE ∧
        flagSet (Interpret_cmp (cmpVM 3 5) ⟨InstCmp, 1, 2⟩) FlagN) ∧
      ((Interpret_cmp (cmpVM 5 5) ⟨InstCmp, 1, 2⟩).RegF.val = 24 ∧
        flagSet (Interpret_cmp (cmpVM 5 5) ⟨InstCmp, 1, 2⟩) FlagE ∧
        flagSet (Interpret_cmp (cmpVM 5 5) ⟨InstCmp, 1, 2⟩) FlagN) := by
  decide

/-- C5, the code at the failing inputs: after `cmp A B` with `A = 3`,
`B = 5` and with `A = B = 5` the BothZero mask tests as set
(`31 AND 26 = 26`, `24 AND 26 = 24`) although the operands are not both 0. -/
theorem C5_cmp_sets_BothZero_on_nonzero :
    flagSet (Interpret_cmp (cmpVM 3 5) ⟨InstCmp, 1, 2⟩) FlagZ ∧
      flagSet (Interpret_cmp (cmpVM 5 5) ⟨InstCmp, 1, 2⟩) FlagZ ∧
      ¬ ((cmpVM 3 5).RegA.val = 0 ∧ (cmpVM 3 5).RegB.val = 0) ∧
      ¬ ((cmpVM 5 5).RegA.val = 0 ∧ (cmpVM 5 5).RegB.val = 0) := by
  decide

/-! ## The fetch-decode-execute cycle -/

theorem isIndexPanic_andThen {H : Type} (r : Result H) (f : Yan85vm → World H → Result H)
    (hr : r.isIndexPanic = false) (hf : ∀ vm w, (f vm w).isIndexPanic = false) :
    (r.andThen f).isIndexPanic = false := by
  cases r with
  | running vm w => exact hf vm w
  | exited c w => rfl
  | fatal w => rfl
  | indexPanic w => exact hr

theorem isIndexPanic_guard {H : Type} (c : Prop) [Decidable c]
    (f : Yan85vm → World H → Result H) (hf : ∀ vm w, (f vm w).isIndexPanic = false)
    (vm : Yan85vm) (w : World H) : (Result.guard c f vm w).isIndexPanic = false := by
  unfold Result.guard
  split
  · exact hf vm w
  · rfl

theorem isIndexPanic_sys_open {H : Type} (ops : HostOps H) (reg : RegName) (vm : Yan85vm)
    (w : World H) : (sys_open ops reg vm w).isIndexPanic = false := by
  simp only [sys_open]
  split <;> rfl

theorem isIndexPanic_sys_read_code {H : Type} (ops : HostOps H) (reg : RegName) (vm : Yan85vm)
    (w : World H) : (sys_read_code ops reg vm w).isIndexPanic = false := by
  simp only [sys_read_code]
  split <;> rfl

theorem isIndexPanic_sys_read_mem {H : Type} (ops : HostOps H) (reg : RegName) (vm : Yan85vm)
    (w : World H) : (sys_read_mem ops reg vm w).isIndexPanic = false := by
  simp only [sys_read_mem]
  split <;> rfl

theorem isIndexPanic_sys_write {H : Type} (ops : HostOps H) (reg : RegName) (vm : Yan85vm)
    (w : World H) : (sys_write ops reg vm w).isIndexPanic = false := by
  simp only [sys_write]
  split <;> rfl

/-- The handler of syscalls never ends in an index panic: each slice it
takes of `Memory` and `Code` is within bounds. -/
theorem isIndexPanic_Interpret_sys {H : Type} (ops : HostOps H) (vm : Yan85vm) (w : World H)
    (inst : Inst) : (Interpret_sys ops vm w inst).isIndexPanic = false := by
  unfold Interpret_sys
  refine isIndexPanic_andThen _ _ (isIndexPanic_andThen _ _ (isIndexPanic_andThen _ _
    (isIndexPanic_andThen _ _ (isIndexPanic_andThen _ _ (isIndexPanic_andThen _ _ ?_ ?_) ?_) ?_)
    ?_) ?_) ?_
  · exact isIndexPanic_guard _ _ (isIndexPanic_sys_open ops _) vm w
  · exact isIndexPanic_guard _ _ (isIndexPanic_sys_read_code ops _)
  · exact isIndexPanic_guard _ _ (isIndexPanic_sys_read_mem ops _)
  · exact isIndexPanic_guard _ _ (isIndexPanic_sys_write ops _)
  · exact isIndexPanic_guard _ _ (fun _ _ => rfl)
  · exact isIndexPanic_guard _ _ (fun _ _ => rfl)
  · exact fun _ _ => rfl

theorem isIndexPanic_Interpret {H : Type} (ops : HostOps H) (vm : Yan85vm) (w : World H)
    (inst : Inst) : (Interpret ops vm w inst).isIndexPanic = false := by
  unfold Interpret
  repeat' split
  all_goals first | rfl | exact isIndexPanic_Interpret_sys ops vm w inst

/-- The search loop of the open block leaves `end` between its initial
value and 255, so the slice `Memory[start:end]` is within bounds. -/
theorem sys_open.scan_bounds (mem : Fin 256 → Byte) (i e : Nat) (hi : e ≤ i) (he : e < 256) :
    e ≤ sys_open.scan mem i e ∧ sys_open.scan mem i e < 256 := by
  generalize hn : 256 - i = n
  induction n generalizing i with
  | zero =>
    rw [sys_open.scan]
    have : ¬ i < 256 := by omega
    simp only [this, dite_false]
    omega
  | succ n ih =>
    rw [sys_open.scan]
    have hlt : i < 256 := by omega
    simp only [hlt, dite_true]
    split
    · omega
    · exact ih (i + 1) (by omega) (by omega)

theorem Execute.cycle_out_of_range {H : Type} (ops : HostOps H) (inst : List Inst)
    (vm : Yan85vm) (w : World H) (h : inst.length ≤ vm.RegI.val.val) :
    Execute.cycle ops inst vm w = Result.indexPanic w := by
  simp only [Execute.cycle, List.get?_eq_none.mpr h]

theorem Execute.cycle_in_range {H : Type} (ops : HostOps H) (inst : List Inst)
    (vm : Yan85vm) (w : World H) (h : vm.RegI.val.val < inst.length) :
    Execute.cycle ops inst vm w =
      Interpret ops (vm.setVal RegName.I (toByte (vm.RegI.val.val + 1))) w
        (inst.get ⟨vm.RegI.val.val, h⟩) := by
  simp only [Execute.cycle, List.get?_eq_get h]

/-- C9: one fetch-decode-execute cycle on an instruction sequence of length
`n` with instruction pointer value `k` ends in the index panic (no
instruction executed, no host call made, no wrap of the index) if and only
if `k ≥ n`; when `k < n` the cycle is the execution of instruction number
`k` on the state in which `I` has first been set to `(k + 1) mod 256`. -/
theorem C9_cycle_faults_iff_out_of_range {H : Type} (ops : HostOps H) (inst : List Inst)
    (vm : Yan85vm) (w : World H) :
    ((Execute.cycle ops inst vm w).isIndexPanic = true ↔ inst.length ≤ vm.RegI.val.val) ∧
      (inst.length ≤ vm.RegI.val.val → Execute.cycle ops inst vm w = Result.indexPanic w) ∧
      (∀ h : vm.RegI.val.val < inst.length,
        Execute.cycle ops inst vm w =
          Interpret ops
            { vm with RegI := { id := vm.RegI.id,
                                val := ⟨(vm.RegI.val.val + 1) % 256, Nat.mod_lt _ (by decide)⟩ } }
            w (inst.get ⟨vm.RegI.val.val, h⟩)) := by
  refine ⟨⟨?_, ?_⟩, Execute.cycle_out_of_range ops inst vm w, ?_⟩
  · intro hp
    by_contra hlt
    rw [Execute.cycle_in_range ops inst vm w (by omega), isIndexPanic_Interpret] at hp
    exact Bool.false_ne_true hp
  · intro hle
    rw [Execute.cycle_out_of_range ops inst vm w hle]
    rfl
  · intro h
    exact Execute.cycle_in_range ops inst vm w h

/-- Witness of C9: on the one-instruction program `imm A 5` the cycle at
`I = 0` executes that instruction with `I = 1`, and the cycle at `I = 1`
ends in the index panic. -/
theorem C9_cycle_faults_iff_out_of_range_witness :
    ((Execute.cycle nullHost [⟨InstImm, 1, 5⟩] initVM (World.start ())).vm?.map
        (fun vm => (vm.RegA.val, vm.RegI.val)) = some (5, 1)) ∧
      (Execute.cycle nullHost [⟨InstImm, 1, 5⟩] (initVM.setVal RegName.I 1)
        (World.start ())).isIndexPanic = true := by
  refine ⟨?_, ?_⟩
  · rw [(C9_cycle_faults_iff_out_of_range nullHost [⟨InstImm, 1, 5⟩] initVM
      (World.start ())).2.2 (by decide)]
    rfl
  · exact (C9_cycle_faults_iff_out_of_range nullHost [⟨InstImm, 1, 5⟩]
      (initVM.setVal RegName.I 1) (World.start ())).1.mpr (by decide)

/-! ## The sentinel register -/

theorem andThen_running {H : Type} (r : Result H) (f : Yan85vm → World H → Result H)
    (vm' : Yan85vm) (w' : World H) (h : r.andThen f = Result.running vm' w') :
    ∃ vm1 w1, r = Result.running vm1 w1 ∧ f vm1 w1 = Result.running vm' w' := by
  cases r with
  | running vm w => exact ⟨vm, w, rfl, h⟩
  | exited c w => cases h
  | fatal w => cases h
  | indexPanic w => cases h

theorem keepsNone_andThen {H : Type} (f g : Yan85vm → World H → Result H)
    (hf : keepsNone f) (hg : keepsNone g) : keepsNone (fun vm w => (f vm w).andThen g) := by
  intro vm w vm' w' h
  obtain ⟨vm1, w1, h1, h2⟩ := andThen_running _ _ _ _ h
  rw [hg vm1 w1 vm' w' h2, hf vm w vm1 w1 h1]

theorem keepsNone_guard {H : Type} (c : Prop) [Decidable c] (f : Yan85vm → World H → Result H)
    (hf : keepsNone f) : keepsNone (Result.guard c f) := by
  intro vm w vm' w' h
  unfold Result.guard at h
  split at h
  · exact hf vm w vm' w' h
  · cases h
    rfl

theorem keepsNone_sys_open {H : Type} (ops : HostOps H) (reg : RegName)
    (hreg : reg ≠ RegName.None) : keepsNone (sys_open ops reg) := by
  intro vm w vm' w' h
  simp only [sys_open] at h
  split at h
  · cases h
  · cases h
    exact RegNone_setVal _ _ _ hreg

theorem keepsNone_sys_read_code {H : Type} (ops : HostOps H) (reg : RegName)
    (hreg : reg ≠ RegName.None) : keepsNone (sys_read_code ops reg) := by
  intro vm w vm' w' h
  simp only [sys_read_code] at h
  split at h
  · cases h
  · cases h
    exact RegNone_setVal _ _ _ hreg

theorem keepsNone_sys_read_mem {H : Type} (ops : HostOps H) (reg : RegName)
    (hreg : reg ≠ RegName.None) : keepsNone (sys_read_mem ops reg) := by
  intro vm w vm' w' h
  simp only [sys_read_mem] at h
  split at h
  · cases h
  · cases h
    exact RegNone_setVal _ _ _ hreg

theorem keepsNone_sys_write {H : Type} (ops : HostOps H) (reg : RegName)
    (hreg : reg ≠ RegName.None) : keepsNone (sys_write ops reg) := by
  intro vm w vm' w' h
  simp only [sys_write] at h
  split at h
  · cases h
  · cases h
    exact RegNone_setVal _ _ _ hreg

theorem keepsNone_sys_sleep {H : Type} (ops : HostOps H) (reg : RegName)
    (hreg : reg ≠ RegName.None) : keepsNone (sys_sleep ops reg) := by
  intro vm w vm' w' h
  simp only [sys_sleep] at h
  cases h
  exact RegNone_setVal _ _ _ hreg

theorem keepsNone_Interpret_sys {H : Type} (ops : HostOps H) (inst : Inst)
    (hreg : GetReg inst.Arg2 ≠ RegName.None) :
    keepsNone (fun vm w => Interpret_sys ops vm w inst) := by
  unfold Interpret_sys
  refine keepsNone_andThen _ _ (keepsNone_andThen _ _ (keepsNone_andThen _ _
    (keepsNone_andThen _ _ (keepsNone_andThen _ _ (keepsNone_andThen _ _ ?_ ?_) ?_) ?_) ?_) ?_) ?_
  · exact keepsNone_guard _ _ (keepsNone_sys_open ops _ hreg)
  · exact keepsNone_guard _ _ (keepsNone_sys_read_code ops _ hreg)
  · exact keepsNone_guard _ _ (keepsNone_sys_read_mem ops _ hreg)
  · exact keepsNone_guard _ _ (keepsNone_sys_write ops _ hreg)
  · exact keepsNone_guard _ _ (keepsNone_sys_sleep ops _ hreg)
  · exact keepsNone_guard _ _ (fun vm w vm' w' h => by cases h)
  · intro vm w vm' w' h
    cases h
    rfl

theorem RegNone_Interpret_stk (vm : Yan85vm) (inst : Inst) :
    (Interpret_stk vm inst).RegNone = vm.RegNone := by
  have hS : RegName.S ≠ RegName.None := by decide
  by_cases h1 : GetReg inst.Arg1 ≠ RegName.None <;> by_cases h2 : GetReg inst.Arg2 ≠ RegName.None
  · simp only [Interpret_stk, if_pos h1, if_pos h2, RegNone_setVal _ _ _ hS,
      RegNone_setVal _ _ _ h1, RegNone_setMem]
  · simp only [Interpret_stk, if_pos h1, if_neg h2, RegNone_setVal _ _ _ hS,
      RegNone_setVal _ _ _ h1]
  · simp only [Interpret_stk, if_neg h1, if_pos h2, RegNone_setVal _ _ _ hS, RegNone_setMem]
  · simp only [Interpret_stk, if_neg h1, if_neg h2]

theorem RegNone_Interpret_cmp (vm : Yan85vm) (inst : Inst) :
    (Interpret_cmp vm inst).RegNone = vm.RegNone := by
  have hF : RegName.F ≠ RegName.None := by decide
  have e : ∀ (v : Yan85vm) (f : Byte), (v.orFlag f).RegNone = v.RegNone := fun v f =>
    RegNone_setVal v _ _ hF
  simp only [Interpret_cmp]
  repeat' split
  all_goals simp only [e, RegNone_setVal _ _ _ hF]

theorem RegNone_Interpret_jmp (vm : Yan85vm) (inst : Inst) :
    (Interpret_jmp vm inst).RegNone = vm.RegNone := by
  simp only [Interpret_jmp]
  split
  · exact RegNone_setVal _ _ _ (by decide)
  · rfl

/-- An instruction whose destination operand is a real register leaves the
sentinel as it found it. -/
theorem keepsNone_Interpret {H : Type} (ops : HostOps H) (inst : Inst) (h : destReal inst) :
    keepsNone (fun vm w => Interpret ops vm w inst) := by
  intro vm w vm' w' hrun
  simp only [Interpret] at hrun
  split at hrun
  · rename_i hop
    cases hrun
    exact RegNone_setVal _ _ _ (GetReg_ne_None _ (h.1 (Or.inl hop)).1 (h.1 (Or.inl hop)).2)
  split at hrun
  · rename_i hop
    cases hrun
    exact RegNone_setVal _ _ _
      (GetReg_ne_None _ (h.1 (Or.inr (Or.inl hop))).1 (h.1 (Or.inr (Or.inl hop))).2)
  split at hrun
  · cases hrun
    exact RegNone_Interpret_stk vm inst
  split at hrun
  · cases hrun
    rfl
  split at hrun
  · rename_i hop
    cases hrun
    exact RegNone_setVal _ _ _
      (GetReg_ne_None _ (h.1 (Or.inr (Or.inr hop))).1 (h.1 (Or.inr (Or.inr hop))).2)
  split at hrun
  · cases hrun
    exact RegNone_Interpret_cmp vm inst
  split at hrun
  · cases hrun
    exact RegNone_Interpret_jmp vm inst
  split at hrun
  · rename_i hop
    exact keepsNone_Interpret_sys ops inst (GetReg_ne_None _ (h.2 hop).1 (h.2 hop).2)
      vm w vm' w' hrun
  · cases hrun
    rfl

theorem keepsNone_InterpretAll {H : Type} (ops : HostOps H) (is : List Inst)
    (h : ∀ i ∈ is, destReal i) : keepsNone (InterpretAll ops is) := by
  induction is with
  | nil =>
    intro vm w vm' w' hrun
    cases hrun
    rfl
  | cons i is ih =>
    exact keepsNone_andThen _ _ (keepsNone_Interpret ops i (h i (List.mem_cons_self i is)))
      (ih (fun j hj => h j (List.mem_cons_of_mem i hj)))

/-- C10 fails on the code: from the zero-initialised VM, `imm 0 5` (arg1
names no register) leaves the sentinel holding 5, and the following
`add A 0` reads the operand 0 as 5 and leaves `A = 5`; so the sentinel does
not hold 0 in every reachable state. -/
theorem C10_sentinel_keeps_write_counterexample :
    (InterpretAll nullHost [⟨InstImm, 0, 5⟩, ⟨InstAdd, 1, 0⟩] initVM (World.start ())).vm?.map
        (fun vm => (vm.RegNone.val, vm.RegA.val)) = some (5, 5) ∧
      ¬ (∀ (is : List Inst) (vm' : Yan85vm),
          (InterpretAll nullHost is initVM (World.start ())).vm? = some vm' →
            vm'.RegNone.val = 0) := by
  refine ⟨by decide, ?_⟩
  intro h
  have h5 := h [⟨InstImm, 0, 5⟩] _ rfl
  revert h5
  decide

/-- C10, amended: in every state reached from the zero-initialised VM by
executing a finite sequence of instructions whose destination operands are
real register ids (`destReal`), the sentinel holds 0 and every operand byte
outside 1..7 reads as 0; and an immediate-load whose `arg1` is outside 1..7
stores its literal in the sentinel, changing nothing else of the state and
making no host call. -/
theorem C10_sentinel_zero_while_not_destination {H : Type} (ops : HostOps H) (is : List Inst)
    (w w' : World H) (vm' : Yan85vm)
    (hdest : ∀ i ∈ is, destReal i)
    (hrun : InterpretAll ops is initVM w = Result.running vm' w') :
    (vm'.RegNone.val = 0 ∧
        ∀ b : Byte, (b.val = 0 ∨ 7 < b.val) → (vm'.get (GetReg b)).val = 0) ∧
      (∀ (vm : Yan85vm) (b v : Byte), (b.val = 0 ∨ 7 < b.val) →
        Interpret ops vm w ⟨InstImm, b, v⟩ =
          Result.running { vm with RegNone := { id := vm.RegNone.id, val := v } } w) := by
  have hnone : vm'.RegNone = initVM.RegNone := keepsNone_InterpretAll ops is hdest _ _ _ _ hrun
  refine ⟨⟨?_, ?_⟩, ?_⟩
  · rw [hnone]
    rfl
  · intro b hb
    rw [GetReg_eq_None b hb]
    show vm'.RegNone.val = 0
    rw [hnone]
    rfl
  · intro vm b v hb
    rw [Interpret_imm_eq]
    simp only [Interpret_imm, GetReg_eq_None b hb]
    rfl

/-- Witness of the amended C10: after `imm A 5`, `add A 0`, `stk 0 A`,
`cmp A 9` the sentinel holds 0 and the operand 9 reads as 0. -/
theorem C10_sentinel_zero_while_not_destination_witness :
    ∃ vm' w', InterpretAll nullHost
          [⟨InstImm, 1, 5⟩, ⟨InstAdd, 1, 0⟩, ⟨InstStk, 0, 1⟩, ⟨InstCmp, 1, 9⟩]
          initVM (World.start ()) = Result.running vm' w' ∧
      vm'.RegNone.val = 0 ∧ (vm'.get (GetReg 9)).val = 0 :=
  ⟨_, _, rfl,
    (C10_sentinel_zero_while_not_destination nullHost
      [⟨InstImm, 1, 5⟩, ⟨InstAdd, 1, 0⟩, ⟨InstStk, 0, 1⟩, ⟨InstCmp, 1, 9⟩]
      (World.start ()) _ _ (by decide) rfl).1.1,
    (C10_sentinel_zero_while_not_destination nullHost
      [⟨InstImm, 1, 5⟩, ⟨InstAdd, 1, 0⟩, ⟨InstStk, 0, 1⟩, ⟨InstCmp, 1, 9⟩]
      (World.start ()) _ _ (by decide) rfl).1.2 9 (by decide)⟩

/-! ## Unrecognised opcodes -/

/-- C11: for an instruction whose opcode byte is not one of 8..15,
`Interpret` returns with the VM state as it was (registers, sentinel,
Memory and Code), with the host state and the trace of host calls as they
were, whatever `arg1` and `arg2` are. -/
theorem C11_unknown_opcode_changes_nothing {H : Type} (ops : HostOps H) (vm : Yan85vm)
    (w : World H) (inst : Inst) (hop : inst.Op.val < 8 ∨ 15 < inst.Op.val) :
    Interpret ops vm w inst = Result.running vm w := by
  have e : ∀ c : Byte, 8 ≤ c.val → c.val ≤ 15 → ¬ inst.Op = c := by
    intro c h8 h15 hc
    rw [hc] at hop
    omega
  unfold Interpret
  rw [if_neg (e _ (by decide) (by decide)), if_neg (e _ (by decide) (by decide)),
    if_neg (e _ (by decide) (by decide)), if_neg (e _ (by decide) (by decide)),
    if_neg (e _ (by decide) (by decide)), if_neg (e _ (by decide) (by decide)),
    if_neg (e _ (by decide) (by decide)), if_neg (e _ (by decide) (by decide))]

/-- Witness of C11: the opcode bytes 7 and 16, with operands that would
name registers and syscalls. -/
theorem C11_unknown_opcode_changes_nothing_witness :
    Interpret nullHost sampleVM (World.start ()) ⟨7, 1, 2⟩
        = Result.running sampleVM (World.start ()) ∧
      Interpret nullHost sampleVM (World.start ()) ⟨16, 21, 1⟩
        = Result.running sampleVM (World.start ()) :=
  ⟨C11_unknown_opcode_changes_nothing nullHost sampleVM (World.start ()) ⟨7, 1, 2⟩ (by decide),
    C11_unknown_opcode_changes_nothing nullHost sampleVM (World.start ()) ⟨16, 21, 1⟩
      (by decide)⟩

/-! ## The syscall constants

`SysOpen .. SysExit` are the consecutive integers 16 .. 21, which all have
bit 16 set, while `Interpret_sys` tests each of them as a mask of its own
(`sysFlag&SysOpen != 0`, ...). -/

theorem Interpret_sys_eq {H : Type} (ops : HostOps H) (vm : Yan85vm) (w : World H)
    (a1 a2 : Byte) :
    Interpret ops vm w ⟨InstSys, a1, a2⟩ = Interpret_sys ops vm w ⟨InstSys, a1, a2⟩ := by
  simp [Interpret, InstSys, InstJmp, InstCmp, InstLdm, InstStm, InstStk, InstAdd, InstImm]

theorem sys_constant_cases (f : Byte) (h : 16 ≤ f.val ∧ f.val ≤ 21) :
    f = SysOpen ∨ f = SysReadCode ∨ f = SysReadMem ∨ f = SysWrite ∨ f = SysSleep ∨
      f = SysExit := by
  have h' : f.val = 16 ∨ f.val = 17 ∨ f.val = 18 ∨ f.val = 19 ∨ f.val = 20 ∨ f.val = 21 := by
    omega
  rcases h' with h' | h' | h' | h' | h' | h'
  · exact Or.inl (Fin.ext h')
  · exact Or.inr (Or.inl (Fin.ext h'))
  · exact Or.inr (Or.inr (Or.inl (Fin.ext h')))
  · exact Or.inr (Or.inr (Or.inr (Or.inl (Fin.ext h'))))
  · exact Or.inr (Or.inr (Or.inr (Or.inr (Or.inl (Fin.ext h')))))
  · exact Or.inr (Or.inr (Or.inr (Or.inr (Or.inr (Fin.ext h')))))

/-- Each of the six syscall constants passes the mask test of every one of
the six blocks of `Interpret_sys`. -/
theorem sys_constant_passes_every_test (f : Byte) (h : 16 ≤ f.val ∧ f.val ≤ 21) :
    f.val &&& SysOpen.val ≠ 0 ∧ f.val &&& SysReadCode.val ≠ 0 ∧
      f.val &&& SysReadMem.val ≠ 0 ∧ f.val &&& SysWrite.val ≠ 0 ∧
      f.val &&& SysSleep.val ≠ 0 ∧ f.val &&& SysExit.val ≠ 0 := by
  rcases sys_constant_cases f h with e | e | e | e | e | e <;> subst e <;> decide

theorem guard_pos {H : Type} (c : Prop) [Decidable c] (hc : c)
    (f : Yan85vm → World H → Result H) : Result.guard c f = f := by
  funext vm w
  simp only [Result.guard, if_pos hc]

theorem guard_neg {H : Type} (c : Prop) [Decidable c] (hc : ¬ c)
    (f : Yan85vm → World H → Result H) : Result.guard c f = Result.running := by
  funext vm w
  simp only [Result.guard, if_neg hc]

theorem andThen_sys_exit_dumpVM {H : Type} (r : Result H) :
    (r.andThen sys_exit).andThen dumpVM = r.andThen sys_exit := by
  cases r <;> rfl

/-- A syscall instruction whose `arg1` is one of the six syscall constants
runs all six blocks in the order of the source, as far as the host calls
succeed, and ends in `os.Exit`. -/
theorem Interpret_sys_of_constant {H : Type} (ops : HostOps H) (vm : Yan85vm) (w : World H)
    (f a2 : Byte) (h : 16 ≤ f.val ∧ f.val ≤ 21) :
    Interpret ops vm w ⟨InstSys, f, a2⟩ =
      (((((sys_open ops (GetReg a2) vm w).andThen (sys_read_code ops (GetReg a2))).andThen
        (sys_read_mem ops (GetReg a2))).andThen (sys_write ops (GetReg a2))).andThen
        (sys_sleep ops (GetReg a2))).andThen sys_exit := by
  obtain ⟨h1, h2, h3, h4, h5, h6⟩ := sys_constant_passes_every_test f h
  rw [Interpret_sys_eq]
  simp only [Interpret_sys]
  rw [guard_pos _ h1, guard_pos _ h2, guard_pos _ h3, guard_pos _ h4, guard_pos _ h5,
    guard_pos _ h6, andThen_sys_exit_dumpVM]

theorem sys_open.scan_found (mem : Fin 256 → Byte) (i e : Nat) (h : i < 256)
    (hz : mem ⟨i, h⟩ = 0) : sys_open.scan mem i e = i := by
  rw [sys_open.scan]
  simp only [h, dite_true, hz, if_true]

theorem sys_open.scan_step (mem : Fin 256 → Byte) (i e : Nat) (h : i < 256)
    (hnz : mem ⟨i, h⟩ ≠ 0) : sys_open.scan mem i e = sys_open.scan mem (i + 1) e := by
  rw [sys_open.scan]
  simp only [h, dite_true, hnz, if_false]

theorem sys_open.scan_end (mem : Fin 256 → Byte) (i e : Nat) (h : 256 ≤ i) :
    sys_open.scan mem i e = e := by
  rw [sys_open.scan]
  have h' : ¬ i < 256 := by omega
  simp only [h', dite_false]

/-- The open block, given the value `j` of `end` after the search loop. -/
theorem sys_open_of_scan {H : Type} (ops : HostOps H) (reg : RegName) (vm : Yan85vm)
    (w : World H) (j : Nat)
    (hj : sys_open.scan vm.Memory vm.RegA.val.val vm.RegA.val.val = j) :
    sys_open ops reg vm w =
      match ops.sysOpen w.host (vm.memSlice vm.RegA.val.val j) with
      | none => Result.fatal (w.emit (HostEvent.open (vm.memSlice vm.RegA.val.val j)) w.host)
      | some (fd, h) =>
          Result.running (vm.setVal reg (toByte fd))
            (w.emit (HostEvent.open (vm.memSlice vm.RegA.val.val j)) h) := by
  subst hj
  rfl

/-- C12, the code at the failing input: in a state prepared for a write of
`Memory[10..11]` to descriptor 1 (`A = 1`, `B = 10`, `C = 2`), on a host
where every call succeeds, the syscall instruction with `arg1 = SysWrite`
and return register `D` makes, in this order, an open, a read into Code, a
read into Memory, the write, a sleep and the exit. -/
theorem C12_SysWrite_runs_all_six_operations :
    (Interpret okHost sysVM (World.start ()) ⟨InstSys, SysWrite, Byte2RegD⟩).trace =
      [HostEvent.open [], HostEvent.readCode 1 738, HostEvent.readMem 1 246,
        HostEvent.write 1 [104, 105], HostEvent.sleep 1, HostEvent.exit 1] := by
  rw [Interpret_sys_of_constant okHost sysVM (World.start ()) SysWrite Byte2RegD (by decide),
    sys_open_of_scan okHost _ sysVM (World.start ()) 1
      (sys_open.scan_found _ _ _ (by decide) (by decide))]
  decide

/-! ## Bounds of the write and read-memory blocks -/

theorem memSlice_length (vm : Yan85vm) (lo hi : Nat) : (vm.memSlice lo hi).length = hi - lo := by
  simp [Yan85vm.memSlice]

theorem memSlice_getElem? (vm : Yan85vm) (lo hi i : Nat) (hi' : lo + i < hi) (h256 : hi ≤ 256) :
    (vm.memSlice lo hi)[i]? = some (vm.Memory ⟨lo + i, by omega⟩) := by
  have h1 : i < hi - lo := by omega
  have h2 : lo + i < 256 := by omega
  simp [Yan85vm.memSlice, List.getElem?_map, List.getElem?_range h1, h2]

/-- C13: in a state with `B = b` and `C = c` the write block hands
`syscall.Write` the descriptor in `A` and a buffer of exactly
`n = min (256 - b) c` bytes, the bytes `Memory[b], …, Memory[b+n-1]`;
`b + n ≤ 256`, so the slice is within Memory, and when `b + c > 256` the
length is `256 - b`. -/
theorem C13_write_buffer_is_clamped {H : Type} (ops : HostOps H) (reg : RegName)
    (vm : Yan85vm) (w : World H) :
    ∃ buf : List Byte,
      sys_write ops reg vm w =
          (match ops.sysWrite w.host vm.RegA.val.val buf with
          | none => Result.fatal (w.emit (HostEvent.write vm.RegA.val.val buf) w.host)
          | some (res, h) =>
              Result.running (vm.setVal reg (toByte res))
                (w.emit (HostEvent.write vm.RegA.val.val buf) h)) ∧
        (sys_write ops reg vm w).trace = w.trace ++ [HostEvent.write vm.RegA.val.val buf] ∧
        buf.length = min (256 - vm.RegB.val.val) vm.RegC.val.val ∧
        (∀ i : Nat, ∀ hi : i < min (256 - vm.RegB.val.val) vm.RegC.val.val,
          buf[i]? = some (vm.Memory ⟨vm.RegB.val.val + i, by omega⟩)) ∧
        vm.RegB.val.val + min (256 - vm.RegB.val.val) vm.RegC.val.val ≤ 256 ∧
        (vm.RegB.val.val + vm.RegC.val.val > 256 → buf.length = 256 - vm.RegB.val.val) := by
  have hb := vm.RegB.val.isLt
  refine ⟨vm.memSlice vm.RegB.val.val
    (vm.RegB.val.val + min (0x100 - vm.RegB.val.val) vm.RegC.val.val), rfl, ?_, ?_, ?_, ?_, ?_⟩
  · simp only [sys_write]
    split <;> rfl
  · rw [memSlice_length]
    omega
  · intro i hi
    exact memSlice_getElem? vm _ _ i (by omega) (by omega)
  · omega
  · intro h
    rw [memSlice_length]
    omega

/-- The write block on a concrete state: with `B = 250` and `C = 10` the
buffer handed to the host has the 6 bytes `Memory[250..255]`. -/
theorem sys_write_sample :
    (sys_write okHost RegName.D
        (((initVM.setVal RegName.B 250).setVal RegName.C 10).setMem 255 9)
        (World.start ())).trace = [HostEvent.write 0 [0, 0, 0, 0, 0, 9]] := by
  decide

/-- C14, the code at the failing input: with `B = 254` and `C = 1`, on a
host whose read fills the buffer it is given, the read-memory block asks
for 2 bytes (the length of `Memory[B:]`, not `min (256 - B) C = 1`) and
`Memory[255]`, which lies at `B + min (256 - B) C`, is overwritten; the
syscall instruction with `arg1 = SysReadMem` makes the same request. -/
theorem C14_read_mem_ignores_C :
    (sys_read_mem fillHost RegName.D readVM (World.start ())).trace
        = [HostEvent.readMem 0 2] ∧
      (sys_read_mem fillHost RegName.D readVM (World.start ())).vm?.map
        (fun vm => (vm.Memory 254, vm.Memory 255)) = some (7, 7) ∧
      (readVM.Memory 254, readVM.Memory 255) = (0, 0) ∧
      readVM.RegB.val.val + min (256 - readVM.RegB.val.val) readVM.RegC.val.val = 255 ∧
      (Interpret fillHost readVM (World.start ()) ⟨InstSys, SysReadMem, Byte2RegD⟩).trace =
        [HostEvent.open [], HostEvent.readCode 0 6, HostEvent.readMem 0 2,
          HostEvent.write 0 [7], HostEvent.sleep 0, HostEvent.exit 0] := by
  refine ⟨by decide, by decide, by decide, by decide, ?_⟩
  rw [Interpret_sys_of_constant fillHost _ (World.start ()) SysReadMem Byte2RegD (by decide),
    sys_open_of_scan fillHost _ _ (World.start ()) 0
      (sys_open.scan_found _ _ _ (by decide) (by decide))]
  decide

/-- The length the read-memory block asks the host for is the length of
`Memory[B:]`, whatever `C` holds. -/
theorem sys_read_mem_request {H : Type} (ops : HostOps H) (reg : RegName) (vm : Yan85vm)
    (w : World H) :
    (sys_read_mem ops reg vm w).trace =
      w.trace ++ [HostEvent.readMem vm.RegA.val.val (256 - vm.RegB.val.val)] := by
  simp only [sys_read_mem]
  split <;> rfl

/-! ## The path of the open block -/

/-- The search loop of the open block stops at the first zero byte at or
after its start index. -/
theorem sys_open.scan_first_zero (mem : Fin 256 → Byte) (e j : Nat) (hj : j < 256)
    (hz : mem ⟨j, hj⟩ = 0) :
    ∀ (d i : Nat), i + d = j → (∀ k (hk : k < 256), i ≤ k → k < j → mem ⟨k, hk⟩ ≠ 0) →
      sys_open.scan mem i e = j := by
  intro d
  induction d with
  | zero =>
    intro i hi _
    have : i = j := by omega
    subst this
    exact sys_open.scan_found mem i e hj hz
  | succ d ih =>
    intro i hi hnz
    have hi256 : i < 256 := by omega
    rw [sys_open.scan_step mem i e hi256 (hnz i hi256 (Nat.le_refl i) (by omega))]
    exact ih (i + 1) (by omega) (fun k hk h1 h2 => hnz k hk (by omega) h2)

/-- Without a zero byte from its start index to the end of Memory, the
search loop of the open block leaves `end` at its initial value. -/
theorem sys_open.scan_no_zero (mem : Fin 256 → Byte) (e : Nat) :
    ∀ (d i : Nat), i + d = 256 → (∀ k (hk : k < 256), i ≤ k → mem ⟨k, hk⟩ ≠ 0) →
      sys_open.scan mem i e = e := by
  intro d
  induction d with
  | zero =>
    intro i hi _
    exact sys_open.scan_end mem i e (by omega)
  | succ d ih =>
    intro i hi hnz
    have hi256 : i < 256 := by omega
    rw [sys_open.scan_step mem i e hi256 (hnz i hi256 (Nat.le_refl i))]
    exact ih (i + 1) (by omega) (fun k hk h1 => hnz k hk (by omega))

/-- The path handed to the host when Memory has a zero byte at or after
`Memory[A]`: the bytes from `Memory[A]` up to the first zero byte. -/
theorem sys_open_path_nul {H : Type} (ops : HostOps H) (reg : RegName) (vm : Yan85vm)
    (w : World H) (j : Nat) (hj : j < 256) (haj : vm.RegA.val.val ≤ j)
    (hz : vm.Memory ⟨j, hj⟩ = 0)
    (hnz : ∀ k (hk : k < 256), vm.RegA.val.val ≤ k → k < j → vm.Memory ⟨k, hk⟩ ≠ 0) :
    (sys_open ops reg vm w).trace =
      w.trace ++ [HostEvent.open (vm.memSlice vm.RegA.val.val j)] := by
  rw [sys_open_of_scan ops reg vm w j
    (sys_open.scan_first_zero vm.Memory _ j hj hz (j - vm.RegA.val.val) _ (by omega) hnz)]
  split <;> rfl

/-- The path handed to the host when Memory has no zero byte from
`Memory[A]` to its end: the empty path. -/
theorem sys_open_path_no_nul {H : Type} (ops : HostOps H) (reg : RegName) (vm : Yan85vm)
    (w : World H)
    (hnz : ∀ k (hk : k < 256), vm.RegA.val.val ≤ k → vm.Memory ⟨k, hk⟩ ≠ 0) :
    (sys_open ops reg vm w).trace = w.trace ++ [HostEvent.open []] := by
  have hA := vm.RegA.val.isLt
  rw [sys_open_of_scan ops reg vm w vm.RegA.val.val
    (sys_open.scan_no_zero vm.Memory _ (256 - vm.RegA.val.val) _ (by omega) hnz)]
  have e : vm.memSlice vm.RegA.val.val vm.RegA.val.val = [] := by
    simp [Yan85vm.memSlice]
  rw [e]
  split <;> rfl

/-- C15 fails on the code: with `A = 250` and every Memory byte equal to
65, so that no byte from index 250 to 255 is zero, the open block hands the
host the empty path and not the six bytes `Memory[250..255]`; the syscall
instruction with `arg1 = SysOpen` makes the same call. -/
theorem C15_open_path_empty_without_nul_counterexample :
    (sys_open okHost RegName.D noNulVM (World.start ())).trace = [HostEvent.open []] ∧
      noNulVM.memSlice 250 256 = [65, 65, 65, 65, 65, 65] ∧
      (Interpret okHost noNulVM (World.start ()) ⟨InstSys, SysOpen, Byte2RegD⟩).trace.head?
        = some (HostEvent.open []) := by
  have hnz : ∀ k (hk : k < 256), noNulVM.RegA.val.val ≤ k → noNulVM.Memory ⟨k, hk⟩ ≠ 0 := by
    intro k hk _
    show (65 : Byte) ≠ 0
    decide
  have h1 := sys_open_path_no_nul okHost RegName.D noNulVM (World.start ()) hnz
  refine ⟨h1, by decide, ?_⟩
  rw [Interpret_sys_of_constant okHost _ (World.start ()) SysOpen Byte2RegD (by decide),
    sys_open_of_scan okHost _ noNulVM (World.start ()) 250
      (sys_open.scan_no_zero noNulVM.Memory _ 6 _ (by decide) hnz)]
  decide

/-- C15, amended: in a state with `A = a`, the path handed to the host by
the open block is the byte string `Memory[a], …, Memory[j-1]`, where `j` is
the least index `≥ a` with `Memory[j] = 0`; when no byte from index `a` to
255 is zero, it is the empty path. -/
theorem C15_open_path_up_to_first_nul {H : Type} (ops : HostOps H) (reg : RegName)
    (vm : Yan85vm) (w : World H) :
    (∀ (j : Nat) (hj : j < 256), vm.RegA.val.val ≤ j → vm.Memory ⟨j, hj⟩ = 0 →
        (∀ k (hk : k < 256), vm.RegA.val.val ≤ k → k < j → vm.Memory ⟨k, hk⟩ ≠ 0) →
        ∃ path : List Byte,
          (sys_open ops reg vm w).trace = w.trace ++ [HostEvent.open path] ∧
            path.length = j - vm.RegA.val.val ∧
            ∀ i : Nat, ∀ hi : i < j - vm.RegA.val.val,
              path[i]? = some (vm.Memory ⟨vm.RegA.val.val + i, by omega⟩)) ∧
      ((∀ k (hk : k < 256), vm.RegA.val.val ≤ k → vm.Memory ⟨k, hk⟩ ≠ 0) →
        (sys_open ops reg vm w).trace = w.trace ++ [HostEvent.open []]) := by
  refine ⟨?_, sys_open_path_no_nul ops reg vm w⟩
  intro j hj haj hz hnz
  refine ⟨vm.memSlice vm.RegA.val.val j, sys_open_path_nul ops reg vm w j hj haj hz hnz,
    memSlice_length vm _ _, ?_⟩
  intro i hi
  exact memSlice_getElem? vm _ _ i (by omega) (by omega)

/-- Witness of the amended C15: with the bytes `97 0` at `Memory[0..1]` and
`A = 0` the path handed to the host is the one byte 97. -/
theorem C15_open_path_up_to_first_nul_witness :
    ∃ path : List Byte,
      (sys_open okHost RegName.D catVM (World.start ())).trace = [HostEvent.open path] ∧
        path.length = 1 ∧ path[0]? = some 97 := by
  obtain ⟨path, ht, hl, hget⟩ :=
    (C15_open_path_up_to_first_nul okHost RegName.D catVM (World.start ())).1 1 (by decide)
      (by decide) (by decide) (by
        intro k hk h0 h1
        have e : k = 0 := by omega
        subst e
        exact (by decide : catVM.Memory 0 ≠ 0))
  exact ⟨path, ht, hl, hget 0 (by decide)⟩

/-! ## The instruction codec: decoding in groups of three -/

theorem getD_take_append (b t : List Byte) (n i : Nat) (hi : i < n) (hn : n ≤ b.length) :
    (b.take n ++ t).getD i 0 = b.getD i 0 := by
  have hlen : i < (b.take n).length := by
    rw [List.length_take]
    omega
  rw [List.getD_eq_getElem?_getD, List.getD_eq_getElem?_getD, List.getElem?_append_left hlen,
    List.getElem?_take_of_lt hi]

/-- The decoder does not read past the last complete group: the bytes after
the first `len(b) - len(b) % 3` can be replaced by any fewer than three
bytes. -/
theorem Raw2Code_trailing (b t : List Byte) (ht : t.length < 3) :
    Raw2Code (b.take (b.length - b.length % 3) ++ t) = Raw2Code b := by
  have hlen : (b.take (b.length - b.length % 3) ++ t).length / 3 = b.length / 3 := by
    rw [List.length_append, List.length_take]
    omega
  rw [Raw2Code_eq_map, Raw2Code_eq_map, hlen]
  apply List.map_congr_left
  intro j hj
  have hj' : j < b.length / 3 := List.mem_range.mp hj
  rw [getD_take_append b t _ (3 * j) (by omega) (by omega),
    getD_take_append b t _ (3 * j + 1) (by omega) (by omega),
    getD_take_append b t _ (3 * j + 2) (by omega) (by omega)]

/-- C16: `Raw2Code b` has exactly `len(b) / 3` instructions; instruction `i`
is `(b[3i], b[3i+1], b[3i+2])`; the trailing `len(b) % 3` bytes do not
influence the result (any fewer than three bytes in their place give the
same instructions); and `Code2Raw (Raw2Code b)` is the prefix of `b` of
length `len(b) - len(b) % 3`. -/
theorem C16_Raw2Code_groups_of_three (b : List Byte) :
    (Raw2Code b).length = b.length / 3 ∧
      (∀ i : Nat, ∀ h : i < b.length / 3,
        (Raw2Code b)[i]? =
          some ⟨b.get ⟨3 * i, by omega⟩, b.get ⟨3 * i + 1, by omega⟩,
            b.get ⟨3 * i + 2, by omega⟩⟩) ∧
      (∀ t : List Byte, t.length < 3 →
        Raw2Code (b.take (b.length - b.length % 3) ++ t) = Raw2Code b) ∧
      Code2Raw (Raw2Code b) = b.take (b.length - b.length % 3) := by
  refine ⟨?_, ?_, Raw2Code_trailing b, ?_⟩
  · rw [Raw2Code_eq_map, List.length_map, List.length_range]
  · intro i h
    rw [Raw2Code_eq_map, List.getElem?_map, List.getElem?_range h, Option.map_some',
      List.getD_eq_getElem _ _ (by omega : 3 * i < b.length),
      List.getD_eq_getElem _ _ (by omega : 3 * i + 1 < b.length),
      List.getD_eq_getElem _ _ (by omega : 3 * i + 2 < b.length)]
    rfl
  · rw [Raw2Code_eq_map, Code2Raw_map_groups b (b.length / 3) (by omega)]
    congr 1
    omega

/-- C16 on the eight bytes `8 1 5 9 1 1 7 7`: two instructions, and the
encoding gives back the first six bytes. -/
theorem C16_Raw2Code_groups_of_three_witness :
    (Raw2Code [8, 1, 5, 9, 1, 1, 7, 7]).length = 2 ∧
      (Raw2Code [8, 1, 5, 9, 1, 1, 7, 7])[1]? = some ⟨9, 1, 1⟩ ∧
      Code2Raw (Raw2Code [8, 1, 5, 9, 1, 1, 7, 7]) = [8, 1, 5, 9, 1, 1] :=
  ⟨(C16_Raw2Code_groups_of_three [8, 1, 5, 9, 1, 1, 7, 7]).1,
    (C16_Raw2Code_groups_of_three [8, 1, 5, 9, 1, 1, 7, 7]).2.1 1 (by decide),
    (C16_Raw2Code_groups_of_three [8, 1, 5, 9, 1, 1, 7, 7]).2.2.2⟩

/-! ## The instruction codec: encoding then decoding -/

theorem Code2Raw_cons (v : Inst) (s : List Inst) :
    Code2Raw (v :: s) = v.Op :: v.Arg1 :: v.Arg2 :: Code2Raw s := by
  have e : v :: s = [v] ++ s := rfl
  rw [e, Code2Raw_append, Code2Raw_singleton]
  rfl

theorem Code2Raw_length (s : List Inst) : (Code2Raw s).length = 3 * s.length := by
  induction s with
  | nil => rfl
  | cons v s ih =>
    rw [Code2Raw_cons, List.length_cons, List.length_cons, List.length_cons, ih,
      List.length_cons]
    omega

theorem Raw2Code_cons3 (x y z : Byte) (rest : List Byte) :
    Raw2Code (x :: y :: z :: rest) = ⟨x, y, z⟩ :: Raw2Code rest := by
  have hlen : (x :: y :: z :: rest).length / 3 = rest.length / 3 + 1 := by
    simp only [List.length_cons]
    omega
  rw [Raw2Code_eq_map, Raw2Code_eq_map, hlen, List.range_succ_eq_map, List.map_cons,
    List.map_map]
  congr 1

/-- C20: for every sequence of instructions `s`, decoding its encoding
gives `s` back, and the encoding has exactly `3 * len(s)` bytes. -/
theorem C20_Raw2Code_Code2Raw (s : List Inst) :
    Raw2Code (Code2Raw s) = s ∧ (Code2Raw s).length = 3 * s.length := by
  refine ⟨?_, Code2Raw_length s⟩
  induction s with
  | nil => rw [Raw2Code_eq_map]; rfl
  | cons v s ih => rw [Code2Raw_cons, Raw2Code_cons3, ih]

/-! ## Where instructions are fetched from -/

theorem Raw2Code_nil : Raw2Code [] = [] := by
  rw [Raw2Code_eq_map]
  rfl

/-- Instruction `i` of the decoded sequence is the `i`-th group of three
bytes of the input. -/
theorem Raw2Code_getElem? (b : List Byte) (i : Nat) (h : i < b.length / 3) :
    (Raw2Code b)[i]? =
      some ⟨b.get ⟨3 * i, by omega⟩, b.get ⟨3 * i + 1, by omega⟩,
        b.get ⟨3 * i + 2, by omega⟩⟩ := by
  rw [Raw2Code_eq_map, List.getElem?_map, List.getElem?_range h, Option.map_some',
    List.getD_eq_getElem _ _ (by omega : 3 * i < b.length),
    List.getD_eq_getElem _ _ (by omega : 3 * i + 1 < b.length),
    List.getD_eq_getElem _ _ (by omega : 3 * i + 2 < b.length)]
  rfl

set_option maxRecDepth 100000 in
/-- A block that reads into Code also ends the process: an `arg1` that
passes the mask test of the read-code block passes the tests of the write
and exit blocks, since the bits of 17 are bits of 19 and of 21. -/
theorem sys_read_code_implies_exit (f : Byte) (h : f.val &&& SysReadCode.val ≠ 0) :
    f.val &&& SysWrite.val ≠ 0 ∧ f.val &&& SysExit.val ≠ 0 := by
  revert f
  decide

/-- C17 fails on the code: for the three-byte program `8 1 5` the VM that
`main` builds has `Code[0] = 0`, not 8; the first cycle executes
`imm A 5` (it leaves `A = 5`) while `Code[0..2]` is `0 0 0`, before and
after the cycle, and that triple is an unrecognised opcode, which would
leave `A = 0`. -/
theorem C17_fetch_is_not_from_Code_counterexample :
    initVM.Code 0 = 0 ∧
      (main nullHost [8, 1, 5] 1 (World.start ())).vm?.map
          (fun vm => (vm.RegA.val, vm.Code 0, vm.Code 1, vm.Code 2)) = some (5, 0, 0, 0) ∧
      (Interpret nullHost (initVM.setVal RegName.I 1) (World.start ())
          ⟨initVM.Code 0, initVM.Code 1, initVM.Code 2⟩).vm?.map (fun vm => vm.RegA.val)
        = some 0 := by
  refine ⟨by decide, ?_, by decide⟩
  have e : Raw2Code [8, 1, 5] = [⟨8, 1, 5⟩] := by
    rw [Raw2Code_cons3, Raw2Code_nil]
  simp only [main, e]
  decide

/-- C17, amended: the VM is created with Code all zero and the input bytes
`b` (at most 768) are decoded into the sequence that `Execute` runs; in a
cycle with instruction pointer value `k` below the number of decoded
instructions, the instruction executed is the triple
`(b[3k], b[3k+1], b[3k+2])` of the input bytes, on the state with
`I = (k + 1) mod 256`, whatever the Code region holds. -/
theorem C17_fetch_is_from_decoded_input {H : Type} (ops : HostOps H) (b : List Byte)
    (vm : Yan85vm) (w : World H) (h : vm.RegI.val.val < b.length / 3) :
    (∀ j : Fin 768, initVM.Code j = 0) ∧
      (∀ n : Nat, b.length ≤ 768 → main ops b n w = Execute ops (Raw2Code b) n initVM w) ∧
      (∀ code : Fin 768 → Byte,
        Execute.cycle ops (Raw2Code b) { vm with Code := code } w =
          Interpret ops
            { vm with
              Code := code,
              RegI := { id := vm.RegI.id,
                        val := ⟨(vm.RegI.val.val + 1) % 256, Nat.mod_lt _ (by decide)⟩ } }
            w
            ⟨b.get ⟨3 * vm.RegI.val.val, by omega⟩, b.get ⟨3 * vm.RegI.val.val + 1, by omega⟩,
              b.get ⟨3 * vm.RegI.val.val + 2, by omega⟩⟩) := by
  refine ⟨fun _ => rfl, ?_, ?_⟩
  · intro n hn
    have hn' : ¬ b.length > 0x300 := by omega
    simp only [main, if_neg hn']
  · intro code
    have hget : (Raw2Code b).get? vm.RegI.val.val =
        some ⟨b.get ⟨3 * vm.RegI.val.val, by omega⟩, b.get ⟨3 * vm.RegI.val.val + 1, by omega⟩,
          b.get ⟨3 * vm.RegI.val.val + 2, by omega⟩⟩ := by
      rw [List.get?_eq_getElem?]
      exact Raw2Code_getElem? b _ h
    simp only [Execute.cycle, hget]
    rfl

/-- Witness of the amended C17: with the input bytes `8 1 5` and a Code
region filled with the byte 9, the cycle at `I = 0` executes `imm A 5`. -/
theorem C17_fetch_is_from_decoded_input_witness :
    (Execute.cycle nullHost (Raw2Code [8, 1, 5]) { initVM with Code := fun _ => 9 }
        (World.start ())).vm?.map (fun vm => (vm.RegA.val, vm.RegI.val, vm.Code 0))
      = some (5, 1, 9) := by
  rw [(C17_fetch_is_from_decoded_input nullHost [8, 1, 5] initVM (World.start ())
    (by decide)).2.2 (fun _ => 9)]
  decide

/-! ## The program builder -/

theorem byteOfInt_natCast (a : Nat) : byteOfInt (a : Int) = toByte a := by
  apply Fin.ext
  simp only [byteOfInt, toByte]
  omega

theorem Yan85CatFile.loop_acc (runes : List Nat) : ∀ acc : List Inst,
    Yan85CatFile.loop runes acc = acc ++ Yan85CatFile.loop runes [] := by
  induction runes with
  | nil => intro acc; simp [Yan85CatFile.loop]
  | cons v rest ih =>
    intro acc
    simp only [Yan85CatFile.loop]
    rw [ih, ih ((([] ++ _) ++ _) ++ _)]
    simp only [List.nil_append, List.append_assoc]

theorem Yan85CatFile.loop_cons (v : Nat) (rest : List Nat) :
    Yan85CatFile.loop (v :: rest) [] =
      [⟨InstImm, Byte2RegA, toByte v⟩, ⟨InstStm, Byte2RegB, Byte2RegA⟩,
        ⟨InstAdd, Byte2RegB, Byte2RegC⟩] ++ Yan85CatFile.loop rest [] := by
  simp only [Yan85CatFile.loop]
  rw [Yan85CatFile.loop_acc]
  rfl

theorem Yan85CatFile.loop_length (runes : List Nat) :
    (Yan85CatFile.loop runes []).length = 3 * runes.length := by
  induction runes with
  | nil => rfl
  | cons v rest ih =>
    rw [Yan85CatFile.loop_cons, List.length_append, ih, List.length_cons]
    simp only [List.length_cons, List.length_nil]
    omega

/-- The program of `Yan85CatFile`: two instructions, three for each rune of
the path and for the final NUL, then ten. -/
theorem Yan85CatFile_eq (fn : List Nat) (addr : Int) :
    Yan85CatFile fn addr =
      ([⟨InstImm, Byte2RegC, 1⟩, ⟨InstImm, Byte2RegB, byteOfInt addr⟩] ++
        Yan85CatFile.loop (fn ++ [0]) []) ++
      [⟨InstImm, Byte2RegA, byteOfInt addr⟩, ⟨InstSys, SysOpen, Byte2RegA⟩,
        ⟨InstImm, Byte2RegB, byteOfInt addr⟩, ⟨InstImm, Byte2RegC, 255⟩,
        ⟨InstSys, SysReadMem, Byte2RegA⟩, ⟨InstImm, Byte2RegA, 1⟩,
        ⟨InstImm, Byte2RegB, byteOfInt addr⟩, ⟨InstImm, Byte2RegC, 255⟩,
        ⟨InstSys, SysWrite, Byte2RegA⟩, ⟨InstSys, SysExit, 0⟩] := by
  simp only [Yan85CatFile]
  rw [Yan85CatFile.loop_acc]
  simp only [List.nil_append, List.append_assoc, List.cons_append]

theorem InterpretAll_append {H : Type} (ops : HostOps H) (l₁ l₂ : List Inst) :
    ∀ (vm : Yan85vm) (w : World H),
      InterpretAll ops (l₁ ++ l₂) vm w = (InterpretAll ops l₁ vm w).andThen (InterpretAll ops l₂) := by
  induction l₁ with
  | nil => intro vm w; rfl
  | cons i is ih =>
    intro vm w
    simp only [List.cons_append, InterpretAll]
    cases Interpret ops vm w i with
    | running vm1 w1 => exact ih vm1 w1
    | exited c w1 => rfl
    | fatal w1 => rfl
    | indexPanic w1 => rfl

/-- One round of the path-writing code, `imm A v; stm B A; add B C`, in a
state with `C = 1`: it stores `v` at `Memory[B]` and adds 1 to `B`. -/
theorem catfile_round {H : Type} (ops : HostOps H) (vm : Yan85vm) (w : World H) (v : Byte)
    (hC : vm.RegC.val = 1) :
    ∃ vm1, InterpretAll ops
          [⟨InstImm, Byte2RegA, v⟩, ⟨InstStm, Byte2RegB, Byte2RegA⟩,
            ⟨InstAdd, Byte2RegB, Byte2RegC⟩] vm w = Result.running vm1 w ∧
      vm1.RegC.val = 1 ∧
      vm1.RegB.val.val = (vm.RegB.val.val + 1) % 256 ∧
      vm1.Memory vm.RegB.val = v ∧
      ∀ j : Fin 256, j ≠ vm.RegB.val → vm1.Memory j = vm.Memory j := by
  have hA : GetReg Byte2RegA = RegName.A := by decide
  have hB : GetReg Byte2RegB = RegName.B := by decide
  have hC' : GetReg Byte2RegC = RegName.C := by decide
  refine ⟨Interpret_add (Interpret_stm (Interpret_imm vm ⟨InstImm, Byte2RegA, v⟩)
    ⟨InstStm, Byte2RegB, Byte2RegA⟩) ⟨InstAdd, Byte2RegB, Byte2RegC⟩, ?_, ?_, ?_, ?_, ?_⟩
  · simp only [InterpretAll, Interpret_imm_eq, Interpret_stm_eq, Interpret_add_eq,
      Result.andThen]
  · simp only [Interpret_add, Interpret_stm, Interpret_imm, hA, hB, hC', Yan85vm.setVal,
      Yan85vm.setMem, Yan85vm.get]
    exact hC
  · simp only [Interpret_add, Interpret_stm, Interpret_imm, hA, hB, hC', Yan85vm.setVal,
      Yan85vm.setMem, Yan85vm.get, hC, toByte]
    rfl
  · simp only [Interpret_add, Interpret_stm, Interpret_imm, hA, hB, hC', Yan85vm.setVal,
      Yan85vm.setMem, Yan85vm.get, if_true]
  · intro j hj
    simp only [Interpret_add, Interpret_stm, Interpret_imm, hA, hB, hC', Yan85vm.setVal,
      Yan85vm.setMem, Yan85vm.get, if_neg hj]

/-- The path-writing loop of the program, run from a state with `C = 1` and
`B = b` with `b + len ≤ 256`: it stores the byte of rune `i` at
`Memory[b + i]`, leaves the rest of Memory as it was, and leaves `C = 1`. -/
theorem catfile_loop_writes {H : Type} (ops : HostOps H) (w : World H) :
    ∀ (runes : List Nat) (vm : Yan85vm), vm.RegC.val = 1 →
      vm.RegB.val.val + runes.length ≤ 256 →
      ∃ vm', InterpretAll ops (Yan85CatFile.loop runes []) vm w = Result.running vm' w ∧
        vm'.RegC.val = 1 ∧
        (∀ i : Nat, ∀ hi : i < runes.length, ∀ h256 : vm.RegB.val.val + i < 256,
          vm'.Memory ⟨vm.RegB.val.val + i, h256⟩ = toByte (runes.get ⟨i, hi⟩)) ∧
        ∀ j : Fin 256, (j.val < vm.RegB.val.val ∨ vm.RegB.val.val + runes.length ≤ j.val) →
          vm'.Memory j = vm.Memory j := by
  intro runes
  induction runes with
  | nil =>
    intro vm hC _
    exact ⟨vm, rfl, hC, fun i hi => absurd hi (Nat.not_lt_zero i), fun _ _ => rfl⟩
  | cons v rest ih =>
    intro vm hC hlen
    have hb := vm.RegB.val.isLt
    simp only [List.length_cons] at hlen
    obtain ⟨vm1, hrun1, hC1, hB1, hM1, hO1⟩ := catfile_round ops vm w (toByte v) hC
    obtain ⟨vm', hrun, hC', hM', hO'⟩ := ih vm1 hC1 (by omega)
    refine ⟨vm', ?_, hC', ?_, ?_⟩
    · rw [Yan85CatFile.loop_cons, InterpretAll_append, hrun1]
      exact hrun
    · intro i hi h256
      cases i with
      | zero =>
        have e : (⟨vm.RegB.val.val + 0, h256⟩ : Fin 256) = vm.RegB.val := Fin.ext rfl
        rw [e, hO' vm.RegB.val (by omega), hM1]
        rfl
      | succ k =>
        simp only [List.length_cons] at hi
        have hk : k < rest.length := by omega
        have h1 : vm1.RegB.val.val + k < 256 := by omega
        have e : (⟨vm.RegB.val.val + (k + 1), h256⟩ : Fin 256) = ⟨vm1.RegB.val.val + k, h1⟩ :=
          Fin.ext (by simp only; omega)
        rw [e, hM' k hk h1]
        rfl
    · intro j hj
      simp only [List.length_cons] at hj
      have hjB : j ≠ vm.RegB.val := by
        intro e
        rw [e] at hj
        omega
      rw [hO' j (by omega), hO1 j hjB]

/-- The first `2 + 3 * (n + 1)` instructions of `Yan85CatFile p addr`, run
in order: they store the bytes of the runes of `p` and a final 0 from
`Memory[addr]` on and leave the rest of Memory as it was. -/
theorem catfile_prefix_writes {H : Type} (ops : HostOps H) (vm : Yan85vm) (w : World H)
    (p : List Nat) (addr : Nat) (haddr : addr + p.length < 256) :
    ∃ vm', InterpretAll ops
          ([⟨InstImm, Byte2RegC, 1⟩, ⟨InstImm, Byte2RegB, byteOfInt (addr : Int)⟩] ++
            Yan85CatFile.loop (p ++ [0]) []) vm w = Result.running vm' w ∧
      (∀ i : Nat, ∀ hi : i < p.length,
        vm'.Memory ⟨addr + i, by omega⟩ = toByte (p.get ⟨i, hi⟩)) ∧
      vm'.Memory ⟨addr + p.length, by omega⟩ = 0 ∧
      ∀ j : Fin 256, (j.val < addr ∨ addr + p.length < j.val) → vm'.Memory j = vm.Memory j := by
  have hlen0 : (p ++ [0]).length = p.length + 1 := by simp
  rw [InterpretAll_append]
  have hCr : GetReg Byte2RegC = RegName.C := by decide
  have hBr : GetReg Byte2RegB = RegName.B := by decide
  have h2 : InterpretAll ops
      [⟨InstImm, Byte2RegC, 1⟩, ⟨InstImm, Byte2RegB, byteOfInt (addr : Int)⟩] vm w =
      Result.running ((vm.setVal RegName.C 1).setVal RegName.B (toByte addr)) w := by
    simp only [InterpretAll, Interpret_imm_eq, Result.andThen, Interpret_imm, hCr, hBr,
      byteOfInt_natCast]
  have hB2 : ((vm.setVal RegName.C 1).setVal RegName.B (toByte addr)).RegB.val.val = addr := by
    simp only [Yan85vm.setVal, toByte]
    omega
  have hM2 : ((vm.setVal RegName.C 1).setVal RegName.B (toByte addr)).Memory = vm.Memory := rfl
  obtain ⟨vm', hrun, -, hM, hO⟩ := catfile_loop_writes ops w (p ++ [0])
    ((vm.setVal RegName.C 1).setVal RegName.B (toByte addr)) rfl (by rw [hB2, hlen0]; omega)
  rw [hB2] at hM hO
  rw [hM2] at hO
  refine ⟨vm', ?_, ?_, ?_, ?_⟩
  · rw [h2]
    exact hrun
  · intro i hi
    rw [hM i (by rw [hlen0]; omega) (by omega), List.get_eq_getElem,
      List.getElem_append_left hi]
    rfl
  · rw [hM p.length (by rw [hlen0]; omega) (by omega), List.get_eq_getElem,
      List.getElem_concat_length p 0 p.length rfl]
    rfl
  · intro j hj
    exact hO j (by rw [hlen0]; omega)

/-- C18: for a path `p` of `n` single-byte characters (runes below 128) and
an address `addr` with `addr + n < 256`, `Yan85CatFile p addr` has exactly
`3 * n + 15` instructions, and executing its first `2 + 3 * (n + 1)`
instructions in order from any VM state leaves `Memory[addr + i] = p[i]`
for every `i < n`, `Memory[addr + n] = 0`, and every Memory byte outside
`addr .. addr + n` unchanged; no host call is made. -/
theorem C18_CatFile_writes_path {H : Type} (ops : HostOps H) (vm : Yan85vm) (w : World H)
    (p : List Nat) (addr : Nat) (hp : ∀ c ∈ p, c < 128) (haddr : addr + p.length < 256) :
    (Yan85CatFile p (addr : Int)).length = 3 * p.length + 15 ∧
      ∃ vm', InterpretAll ops ((Yan85CatFile p (addr : Int)).take (2 + 3 * (p.length + 1))) vm w
          = Result.running vm' w ∧
        (∀ i : Nat, ∀ hi : i < p.length,
          (vm'.Memory ⟨addr + i, by omega⟩).val = p.get ⟨i, hi⟩) ∧
        vm'.Memory ⟨addr + p.length, by omega⟩ = 0 ∧
        ∀ j : Fin 256, (j.val < addr ∨ addr + p.length < j.val) →
          vm'.Memory j = vm.Memory j := by
  have hlen0 : (p ++ [0]).length = p.length + 1 := by simp
  have hpre : (([⟨InstImm, Byte2RegC, 1⟩, ⟨InstImm, Byte2RegB, byteOfInt (addr : Int)⟩] :
      List Inst) ++ Yan85CatFile.loop (p ++ [0]) []).length = 2 + 3 * (p.length + 1) := by
    rw [List.length_append, Yan85CatFile.loop_length, hlen0]
    rfl
  constructor
  · rw [Yan85CatFile_eq, List.length_append, hpre]
    simp only [List.length_cons, List.length_nil]
    omega
  · rw [Yan85CatFile_eq, List.take_left' hpre]
    obtain ⟨vm', hrun, hM, hZ, hO⟩ := catfile_prefix_writes ops vm w p addr haddr
    refine ⟨vm', hrun, ?_, hZ, hO⟩
    intro i hi
    rw [hM i hi]
    have hc : p.get ⟨i, hi⟩ < 128 := hp _ (List.get_mem p i hi)
    simp only [toByte]
    omega

/-- Witness of C18: the path `a` at address 254: 18 instructions, of which
the first 8 leave `Memory[254] = 97` and `Memory[255] = 0`. -/
theorem C18_CatFile_writes_path_witness :
    (Yan85CatFile [97] 254).length = 18 ∧
      ∃ vm', InterpretAll nullHost ((Yan85CatFile [97] 254).take 8) sampleVM (World.start ())
          = Result.running vm' (World.start ()) ∧
        (vm'.Memory 254).val = 97 ∧ vm'.Memory 255 = 0 := by
  obtain ⟨hl, vm', hrun, hM, hZ, -⟩ :=
    C18_CatFile_writes_path nullHost sampleVM (World.start ()) [97] 254 (by decide) (by decide)
  exact ⟨hl, vm', hrun, hM 0 (by decide), hZ⟩

/-! ## The generated program, end to end -/

theorem Execute_add {H : Type} (ops : HostOps H) (inst : List Inst) (m n : Nat) :
    ∀ (vm : Yan85vm) (w : World H),
      Execute ops inst (m + n) vm w = (Execute ops inst m vm w).andThen (Execute ops inst n) := by
  induction m with
  | zero =>
    intro vm w
    rw [Nat.zero_add]
    rfl
  | succ m ih =>
    intro vm w
    have e : m + 1 + n = (m + n) + 1 := by omega
    rw [e]
    simp only [Execute]
    cases Execute.cycle ops inst vm w with
    | running vm1 w1 => exact ih vm1 w1
    | exited c w1 => rfl
    | fatal w1 => rfl
    | indexPanic w1 => rfl

theorem andThen_of_exitCode {H : Type} (r : Result H) (f : Yan85vm → World H → Result H)
    (c : Nat) (h : r.exitCode? = some c) : r.andThen f = r := by
  cases r with
  | running vm w => cases h
  | exited c w => rfl
  | fatal w => cases h
  | indexPanic w => cases h

/-- The first nine cycles of `Yan85CatFile "a" 0` make no host call and
lead to `catVM`. -/
theorem Execute_CatFile_nine :
    Execute (fileHost [97] [104, 105]) (Yan85CatFile [97] 0) 9 initVM (World.start 0) =
      Result.running catVM (World.start 0) := by
  rfl

/-- The tenth cycle of `Yan85CatFile "a" 0`, the syscall instruction with
`arg1 = SysOpen`: all six blocks run and the process exits with code 0. -/
theorem Execute_CatFile_tenth :
    (Execute.cycle (fileHost [97] [104, 105]) (Yan85CatFile [97] 0) catVM
        (World.start 0)).trace =
        [HostEvent.open [97], HostEvent.readCode 3 762, HostEvent.readMem 2 254,
          HostEvent.write 0 [0], HostEvent.sleep 1, HostEvent.exit 0] ∧
      (Execute.cycle (fileHost [97] [104, 105]) (Yan85CatFile [97] 0) catVM
        (World.start 0)).exitCode? = some 0 := by
  have hc : Execute.cycle (fileHost [97] [104, 105]) (Yan85CatFile [97] 0) catVM
      (World.start 0) =
      Interpret (fileHost [97] [104, 105]) (catVM.setVal RegName.I 10) (World.start 0)
        ⟨InstSys, SysOpen, Byte2RegA⟩ := rfl
  have hs : sys_open.scan (catVM.setVal RegName.I 10).Memory
      (catVM.setVal RegName.I 10).RegA.val.val (catVM.setVal RegName.I 10).RegA.val.val = 1 := by
    show sys_open.scan (catVM.setVal RegName.I 10).Memory 0 0 = 1
    rw [sys_open.scan_step _ 0 0 (by decide) (by decide)]
    exact sys_open.scan_found _ 1 0 (by decide) (by decide)
  rw [hc, Interpret_sys_of_constant _ _ _ SysOpen Byte2RegA (by decide),
    sys_open_of_scan _ _ _ _ 1 hs]
  decide

theorem Execute.cycle_of_get? {H : Type} (ops : HostOps H) (inst : List Inst) (vm : Yan85vm)
    (w : World H) (i : Inst) (h : inst.get? vm.RegI.val.val = some i) :
    Execute.cycle ops inst vm w =
      Interpret ops (vm.setVal RegName.I (toByte (vm.RegI.val.val + 1))) w i := by
  simp only [Execute.cycle, h]

theorem Interpret_quiet {H : Type} (ops : HostOps H) (vm : Yan85vm) (w : World H) (i : Inst)
    (h : i.quiet = true) : ∃ vm', Interpret ops vm w i = Result.running vm' w := by
  simp only [Inst.quiet, decide_eq_true_eq] at h
  unfold Interpret
  simp only [if_neg h.1, if_neg h.2]
  repeat' split
  all_goals exact ⟨_, rfl⟩

/-- A program whose instructions at the indices 0..255 are all quiet never
ends and never calls the host: the instruction pointer is a byte, so no
other index is fetched. -/
theorem Execute_quiet_forever {H : Type} (ops : HostOps H) (prog : List Inst)
    (hq : ∀ k : Nat, k < 256 → (prog.get? k).map Inst.quiet = some true) :
    ∀ (n : Nat) (vm : Yan85vm) (w : World H),
      ∃ vm', Execute ops prog n vm w = Result.running vm' w := by
  intro n
  induction n with
  | zero => exact fun vm w => ⟨vm, rfl⟩
  | succ n ih =>
    intro vm w
    have hk := hq vm.RegI.val.val vm.RegI.val.isLt
    cases hget : prog.get? vm.RegI.val.val with
    | none => rw [hget] at hk; cases hk
    | some i =>
      rw [hget] at hk
      have hi : i.quiet = true := by
        simpa using hk
      obtain ⟨vm1, h1⟩ := Interpret_quiet ops
        (vm.setVal RegName.I (toByte (vm.RegI.val.val + 1))) w i hi
      obtain ⟨vm', h'⟩ := ih vm1 w
      refine ⟨vm', ?_⟩
      simp only [Execute]
      rw [Execute.cycle_of_get? ops prog vm w i hget, h1]
      exact h'

set_option maxRecDepth 100000 in
theorem longPath_program_quiet :
    ∀ k : Nat, k < 256 → ((Yan85CatFile longPath 0).get? k).map Inst.quiet = some true := by
  decide

/-! ## Straight-line code under the fetch-decode-execute loop -/

theorem setVal_setVal_same (vm : Yan85vm) (r : RegName) (x y : Byte) :
    (vm.setVal r x).setVal r y = vm.setVal r y := by
  cases r <;> rfl

theorem setVal_I_self (vm : Yan85vm) : vm.setVal RegName.I vm.RegI.val = vm := rfl

/-- An instruction on `A`, `B`, `C` neither reads nor writes the
instruction pointer and makes no host call. -/
theorem Interpret_abc {H : Type} (ops : HostOps H) (i : Inst) (h : i.abc) :
    ∃ g : Yan85vm → Yan85vm, (∀ (vm : Yan85vm) (w : World H),
        Interpret ops vm w i = Result.running (g vm) w) ∧
      ∀ (vm : Yan85vm) (x : Byte), g (vm.setVal RegName.I x) = (g vm).setVal RegName.I x := by
  obtain ⟨op, a1, a2⟩ := i
  obtain ⟨hop, h1, h2⟩ := h
  simp only at hop h1 h2
  rcases hop with rfl | rfl | rfl
  · rcases h1 with rfl | rfl | rfl
    all_goals exact ⟨fun vm => Interpret_imm vm ⟨InstImm, _, a2⟩,
      fun vm w => Interpret_imm_eq ops vm w _ a2, fun vm x => rfl⟩
  · rcases h2 with h2 | h2
    · exact absurd h2 (by decide)
    · rcases h1 with rfl | rfl | rfl <;> rcases h2 with rfl | rfl | rfl
      all_goals exact ⟨fun vm => Interpret_add vm ⟨InstAdd, _, _⟩,
        fun vm w => Interpret_add_eq ops vm w _ _, fun vm x => rfl⟩
  · rcases h2 with h2 | h2
    · exact absurd h2 (by decide)
    · rcases h1 with rfl | rfl | rfl <;> rcases h2 with rfl | rfl | rfl
      all_goals exact ⟨fun vm => Interpret_stm vm ⟨InstStm, _, _⟩,
        fun vm w => Interpret_stm_eq ops vm w _ _, fun vm x => rfl⟩

theorem InterpretAll_abc {H : Type} (ops : HostOps H) (l : List Inst) (hl : ∀ i ∈ l, i.abc) :
    ∃ g : Yan85vm → Yan85vm, (∀ (vm : Yan85vm) (w : World H),
        InterpretAll ops l vm w = Result.running (g vm) w) ∧
      ∀ (vm : Yan85vm) (x : Byte), g (vm.setVal RegName.I x) = (g vm).setVal RegName.I x := by
  induction l with
  | nil => exact ⟨fun vm => vm, fun _ _ => rfl, fun _ _ => rfl⟩
  | cons i is ih =>
    obtain ⟨g1, hg1, hc1⟩ := Interpret_abc ops i (hl i (List.mem_cons_self i is))
    obtain ⟨g2, hg2, hc2⟩ := ih (fun j hj => hl j (List.mem_cons_of_mem i hj))
    refine ⟨fun vm => g2 (g1 vm), ?_, ?_⟩
    · intro vm w
      simp only [InterpretAll, hg1, Result.andThen, hg2]
    · intro vm x
      simp only [hc1, hc2]

/-- Running the loop of `Execute` over a stretch of instructions on `A`,
`B`, `C` that starts at the instruction pointer gives the state of their
execution in order, with the instruction pointer advanced past them. -/
theorem Execute_abc {H : Type} (ops : HostOps H) (prog : List Inst) (w : World H) :
    ∀ (l : List Inst) (k : Nat) (vm vmP : Yan85vm), (∀ i ∈ l, i.abc) →
      (∀ j : Nat, j < l.length → prog.get? (k + j) = l.get? j) →
      vm.RegI.val.val = k → k + l.length ≤ 255 →
      InterpretAll ops l vm w = Result.running vmP w →
      Execute ops prog l.length vm w =
        Result.running (vmP.setVal RegName.I (toByte (k + l.length))) w := by
  intro l
  induction l with
  | nil =>
    intro k vm vmP _ _ hk _ hP
    simp only [InterpretAll, Result.running.injEq, and_true] at hP
    subst hP
    have e : toByte (k + ([] : List Inst).length) = vm.RegI.val := by
      apply Fin.ext
      have := vm.RegI.val.isLt
      simp only [toByte, List.length_nil]
      omega
    rw [e]
    rfl
  | cons i is ih =>
    intro k vm vmP hl hget hk hlen hP
    simp only [List.length_cons] at hlen
    obtain ⟨g1, hg1, hc1⟩ := Interpret_abc ops i (hl i (List.mem_cons_self i is))
    obtain ⟨g2, hg2, hc2⟩ := InterpretAll_abc ops is
      (fun j hj => hl j (List.mem_cons_of_mem i hj))
    have hP' : vmP = g2 (g1 vm) := by
      simp only [InterpretAll, hg1, Result.andThen, hg2, Result.running.injEq, and_true] at hP
      exact hP.symm
    have h0 : prog.get? vm.RegI.val.val = some i := by
      have := hget 0 (by simp)
      rw [hk]
      simpa using this
    have hI2 : ((g1 vm).setVal RegName.I (toByte (k + 1))).RegI.val.val = k + 1 := by
      simp only [Yan85vm.setVal, toByte]
      omega
    have hrest := ih (k + 1) ((g1 vm).setVal RegName.I (toByte (k + 1)))
      ((g2 (g1 vm)).setVal RegName.I (toByte (k + 1)))
      (fun j hj => hl j (List.mem_cons_of_mem i hj))
      (fun j hj => by
        have := hget (j + 1) (by simp only [List.length_cons]; omega)
        rw [show k + (j + 1) = k + 1 + j by omega] at this
        simpa using this)
      hI2 (by omega) (by rw [hg2, hc2])
    simp only [List.length_cons, Execute]
    rw [Execute.cycle_of_get? ops prog vm w i h0, hk, hg1, hc1]
    simp only [Result.andThen]
    rw [hrest, setVal_setVal_same, hP']
    congr 2
    apply Fin.ext
    simp only [toByte]
    omega

theorem Yan85CatFile.loop_abc (runes : List Nat) :
    ∀ i ∈ Yan85CatFile.loop runes [], i.abc := by
  induction runes with
  | nil => intro i hi; cases hi
  | cons v rest ih =>
    intro i hi
    rw [Yan85CatFile.loop_cons] at hi
    rcases List.mem_append.mp hi with h | h
    · simp only [List.mem_cons, List.mem_singleton, List.not_mem_nil, or_false] at h
      rcases h with rfl | rfl | rfl
      · exact ⟨Or.inl rfl, Or.inl rfl, Or.inl rfl⟩
      · exact ⟨Or.inr (Or.inr rfl), Or.inr (Or.inl rfl), Or.inr (Or.inl rfl)⟩
      · exact ⟨Or.inr (Or.inl rfl), Or.inr (Or.inl rfl), Or.inr (Or.inr (Or.inr rfl))⟩
    · exact ih i h

/-- The program of `Yan85CatFile` up to its first syscall instruction, and
the rest. -/
theorem Yan85CatFile_split (fn : List Nat) (addr : Int) :
    Yan85CatFile fn addr =
      catfileStraight fn addr ++
        [⟨InstSys, SysOpen, Byte2RegA⟩,
          ⟨InstImm, Byte2RegB, byteOfInt addr⟩, ⟨InstImm, Byte2RegC, 255⟩,
          ⟨InstSys, SysReadMem, Byte2RegA⟩, ⟨InstImm, Byte2RegA, 1⟩,
          ⟨InstImm, Byte2RegB, byteOfInt addr⟩, ⟨InstImm, Byte2RegC, 255⟩,
          ⟨InstSys, SysWrite, Byte2RegA⟩, ⟨InstSys, SysExit, 0⟩] := by
  rw [Yan85CatFile_eq, catfileStraight]
  simp only [List.append_assoc, List.cons_append, List.nil_append]

/-! ## The first syscall instruction of a generated program -/

theorem sys_read_code_succeeds {H : Type} (ops : HostOps H) (reg : RegName) (vm : Yan85vm)
    (w : World H) (hread : ∀ h fd len, (ops.sysRead h fd len).isSome) :
    ∃ vm' w' e, sys_read_code ops reg vm w = Result.running vm' w' ∧
      w'.trace = w.trace ++ [e] := by
  obtain ⟨⟨d, h⟩, e⟩ := Option.isSome_iff_exists.mp
    (hread w.host vm.RegA.val.val (0x300 - vm.RegB.val.val * 3))
  simp only [sys_read_code, e]
  exact ⟨_, _, _, rfl, rfl⟩

theorem sys_read_mem_succeeds {H : Type} (ops : HostOps H) (reg : RegName) (vm : Yan85vm)
    (w : World H) (hread : ∀ h fd len, (ops.sysRead h fd len).isSome) :
    ∃ vm' w' e, sys_read_mem ops reg vm w = Result.running vm' w' ∧
      w'.trace = w.trace ++ [e] := by
  obtain ⟨⟨d, h⟩, e⟩ := Option.isSome_iff_exists.mp
    (hread w.host vm.RegA.val.val (0x100 - vm.RegB.val.val))
  simp only [sys_read_mem, e]
  exact ⟨_, _, _, rfl, rfl⟩

theorem sys_write_succeeds {H : Type} (ops : HostOps H) (reg : RegName) (vm : Yan85vm)
    (w : World H) (hwrite : ∀ h fd buf, (ops.sysWrite h fd buf).isSome) :
    ∃ vm' w' e, sys_write ops reg vm w = Result.running vm' w' ∧
      w'.trace = w.trace ++ [e] := by
  obtain ⟨⟨d, h⟩, e⟩ := Option.isSome_iff_exists.mp
    (hwrite w.host vm.RegA.val.val (vm.memSlice vm.RegB.val.val
      (vm.RegB.val.val + min (0x100 - vm.RegB.val.val) vm.RegC.val.val)))
  simp only [sys_write, e]
  exact ⟨_, _, _, rfl, rfl⟩

/-- With `A` as return register and a host whose reads and writes succeed,
the five blocks after the open block end the process with exit code 0: the
sleep block leaves 0 in `A`, which the exit block passes to `os.Exit`. -/
theorem sys_blocks_after_open_exit_zero {H : Type} (ops : HostOps H)
    (hread : ∀ h fd len, (ops.sysRead h fd len).isSome)
    (hwrite : ∀ h fd buf, (ops.sysWrite h fd buf).isSome) (vm : Yan85vm) (w : World H) :
    ∃ w' es,
      ((((sys_read_code ops RegName.A vm w).andThen (sys_read_mem ops RegName.A)).andThen
          (sys_write ops RegName.A)).andThen (sys_sleep ops RegName.A)).andThen sys_exit
        = Result.exited 0 w' ∧
      w'.trace = w.trace ++ es := by
  obtain ⟨vm1, w1, e1, h1, t1⟩ := sys_read_code_succeeds ops RegName.A vm w hread
  obtain ⟨vm2, w2, e2, h2, t2⟩ := sys_read_mem_succeeds ops RegName.A vm1 w1 hread
  obtain ⟨vm3, w3, e3, h3, t3⟩ := sys_write_succeeds ops RegName.A vm2 w2 hwrite
  refine ⟨(w3.emit (HostEvent.sleep vm3.RegA.val.val) (ops.sleep w3.host vm3.RegA.val.val)).emit
      (HostEvent.exit 0) (ops.sleep w3.host vm3.RegA.val.val),
    [e1, e2, e3, HostEvent.sleep vm3.RegA.val.val, HostEvent.exit 0], ?_, ?_⟩
  · rw [h1]
    simp only [Result.andThen]
    rw [h2]
    simp only [Result.andThen]
    rw [h3]
    simp only [Result.andThen, sys_sleep, sys_exit]
    rfl
  · simp only [World.emit, t3, t2, t1, List.append_assoc, List.singleton_append]
    rfl

/-- The generated program up to its first syscall instruction, under the
loop of `Execute` from the zero-initialised VM: after `3 * n + 6` cycles the
instruction pointer is at the syscall instruction, `A` holds `addr`, and
the path and its final 0 are in Memory from `addr` on; no host call has
been made. -/
theorem catfile_state_before_syscall {H : Type} (ops : HostOps H) (w : World H)
    (p : List Nat) (addr : Nat) (hlen : p.length ≤ 83) (haddr : addr + p.length < 256) :
    ∃ vmS, Execute ops (Yan85CatFile p (addr : Int)) (3 * p.length + 6) initVM w
        = Result.running vmS w ∧
      vmS.RegI.val.val = 3 * p.length + 6 ∧
      vmS.RegA.val.val = addr ∧
      (∀ i : Nat, ∀ hi : i < p.length,
        vmS.Memory ⟨addr + i, by omega⟩ = toByte (p.get ⟨i, hi⟩)) ∧
      vmS.Memory ⟨addr + p.length, by omega⟩ = 0 := by
  have hlen0 : (p ++ [0]).length = p.length + 1 := by simp
  obtain ⟨vm', hrun, hM, hZ, -⟩ := catfile_prefix_writes ops initVM w p addr haddr
  have hL : (catfileStraight p (addr : Int)).length = 3 * p.length + 6 := by
    rw [catfileStraight, List.length_append, List.length_append, Yan85CatFile.loop_length, hlen0]
    simp only [List.length_cons, List.length_nil]
    omega
  have habc : ∀ i ∈ catfileStraight p (addr : Int), i.abc := by
    intro i hi
    rw [catfileStraight] at hi
    rcases List.mem_append.mp hi with h | h
    · rcases List.mem_append.mp h with h | h
      · simp only [List.mem_cons, List.mem_singleton, List.not_mem_nil, or_false] at h
        rcases h with rfl | rfl
        · exact ⟨Or.inl rfl, Or.inr (Or.inr rfl), Or.inl rfl⟩
        · exact ⟨Or.inl rfl, Or.inr (Or.inl rfl), Or.inl rfl⟩
      · exact Yan85CatFile.loop_abc _ i h
    · simp only [List.mem_singleton] at h
      subst h
      exact ⟨Or.inl rfl, Or.inl rfl, Or.inl rfl⟩
  have hAr : GetReg Byte2RegA = RegName.A := by decide
  have hP : InterpretAll ops (catfileStraight p (addr : Int)) initVM w =
      Result.running (vm'.setVal RegName.A (toByte addr)) w := by
    rw [catfileStraight, InterpretAll_append, hrun]
    simp only [Result.andThen, InterpretAll, Interpret_imm_eq, Interpret_imm, hAr,
      byteOfInt_natCast]
  have hex := Execute_abc ops (Yan85CatFile p (addr : Int)) w _ 0 initVM _ habc
    (fun j hj => by
      rw [Yan85CatFile_split, Nat.zero_add, List.get?_eq_getElem?, List.get?_eq_getElem?,
        List.getElem?_append_left hj])
    rfl (by rw [hL]; omega) hP
  rw [hL, Nat.zero_add] at hex
  refine ⟨_, hex, ?_, ?_, ?_, ?_⟩
  · simp only [Yan85vm.setVal, toByte]
    omega
  · simp only [Yan85vm.setVal, toByte]
    omega
  · intro i hi
    exact hM i hi
  · exact hZ

/-- The open block in a state where the bytes of the runes of `p`, all
non-zero, and a final 0 are in Memory from `Memory[A]` on: the path handed
to the host is the bytes of `p`. -/
theorem sys_open_of_written_path {H : Type} (ops : HostOps H) (reg : RegName) (vm : Yan85vm)
    (w : World H) (p : List Nat) (addr : Nat) (hp : ∀ c ∈ p, 0 < c ∧ c < 128)
    (haddr : addr + p.length < 256) (hA : vm.RegA.val.val = addr)
    (hM : ∀ i : Nat, ∀ hi : i < p.length,
      vm.Memory ⟨addr + i, by omega⟩ = toByte (p.get ⟨i, hi⟩))
    (hZ : vm.Memory ⟨addr + p.length, by omega⟩ = 0) :
    sys_open ops reg vm w =
      match ops.sysOpen w.host (p.map toByte) with
      | none => Result.fatal (w.emit (HostEvent.open (p.map toByte)) w.host)
      | some (fd, h) =>
          Result.running (vm.setVal reg (toByte fd)) (w.emit (HostEvent.open (p.map toByte)) h) := by
  have hnz : ∀ k (hk : k < 256), vm.RegA.val.val ≤ k → k < addr + p.length →
      vm.Memory ⟨k, hk⟩ ≠ 0 := by
    intro k hk h1 h2
    rw [hA] at h1
    have hi : k - addr < p.length := by omega
    have e : (⟨k, hk⟩ : Fin 256) = ⟨addr + (k - addr), by omega⟩ := Fin.ext (by simp only; omega)
    rw [e, hM (k - addr) hi]
    have hc := hp _ (List.get_mem p (k - addr) hi)
    intro h0
    have := congrArg Fin.val h0
    simp only [toByte] at this
    have h00 : ((0 : Byte) : Nat) = 0 := rfl
    omega
  have hscan := sys_open.scan_first_zero vm.Memory vm.RegA.val.val (addr + p.length) (by omega)
    hZ (addr + p.length - vm.RegA.val.val) vm.RegA.val.val (by omega) hnz
  have hslice : vm.memSlice vm.RegA.val.val (addr + p.length) = p.map toByte := by
    apply List.ext_getElem?
    intro i
    by_cases hi : i < p.length
    · rw [memSlice_getElem? vm _ _ i (by omega) (by omega), List.getElem?_map,
        List.getElem?_eq_getElem hi, Option.map_some']
      congr 1
      have e : (⟨vm.RegA.val.val + i, by omega⟩ : Fin 256) = ⟨addr + i, by omega⟩ :=
        Fin.ext (by simp only; omega)
      rw [e, hM i hi]
      rfl
    · rw [List.getElem?_eq_none (by rw [memSlice_length]; omega),
        List.getElem?_eq_none (by rw [List.length_map]; omega)]
  rw [sys_open_of_scan ops reg vm w _ hscan, hslice]

/-- C19, the code at the failing input: from the zero-initialised VM, on a
host where the path `a` names a readable file with the two bytes `104 105`
and every call succeeds, the program `Yan85CatFile "a" 0` makes no write to
descriptor 1: its first syscall instruction (`arg1 = SysOpen`), in the
tenth cycle, opens the file, reads it into Code, reads from descriptor 2
into Memory, writes the one byte `Memory[2] = 0` to descriptor 0, sleeps
one second and exits; the bytes `104 105` of the file are never written,
and more cycles change nothing. -/
theorem C19_CatFile_exits_in_first_syscall :
    ∀ n : Nat,
      (Execute (fileHost [97] [104, 105]) (Yan85CatFile [97] 0) (10 + n) initVM
          (World.start 0)).trace =
        [HostEvent.open [97], HostEvent.readCode 3 762, HostEvent.readMem 2 254,
          HostEvent.write 0 [0], HostEvent.sleep 1, HostEvent.exit 0] ∧
      (Execute (fileHost [97] [104, 105]) (Yan85CatFile [97] 0) (10 + n) initVM
          (World.start 0)).exitCode? = some 0 := by
  intro n
  have h10 : Execute (fileHost [97] [104, 105]) (Yan85CatFile [97] 0) 10 initVM (World.start 0) =
      Execute.cycle (fileHost [97] [104, 105]) (Yan85CatFile [97] 0) catVM (World.start 0) := by
    rw [show (10 : Nat) = 9 + 1 from rfl, Execute_add, Execute_CatFile_nine]
    simp only [Result.andThen, Execute]
    exact andThen_of_exitCode _ _ 0 Execute_CatFile_tenth.2
  rw [Execute_add, h10, andThen_of_exitCode _ _ 0 Execute_CatFile_tenth.2]
  exact Execute_CatFile_tenth

/-- For the path of 84 characters `a` at address 0 the generated program,
run by `Execute` itself, never stops and makes no host call: its first 256
instructions are immediate-loads, stores and adds, and the instruction
pointer, a byte, wraps to 0 after them. -/
theorem longPath_program_never_stops :
    longPath.length = 84 ∧
      ∀ n : Nat, ∃ vm', Execute (fileHost (longPath.map toByte) [104, 105])
          (Yan85CatFile longPath 0) n initVM (World.start 0)
        = Result.running vm' (World.start 0) :=
  ⟨rfl, fun n => Execute_quiet_forever _ _ longPath_program_quiet n _ _⟩

/-- The effect of the overlapping syscall constants on every generated
program that reaches its first syscall instruction (a path `p` of at most
83 single-byte non-NUL characters with `addr + len(p) < 256`), on a host
on which the open of `p` and every read and write, whatever the
descriptor, succeed: that instruction, meant to open the file only, opens
`p` and then ends the process with exit code 0, so that the instructions
after it, among them the write to descriptor 1, are never executed. -/
theorem catfile_first_syscall_ends_process {H : Type} (ops : HostOps H) (h0 : H)
    (p : List Nat) (addr : Nat)
    (hp : ∀ c ∈ p, 0 < c ∧ c < 128) (hlen : p.length ≤ 83) (haddr : addr + p.length < 256)
    (hopen : ∀ h, (ops.sysOpen h (p.map toByte)).isSome)
    (hread : ∀ h fd len, (ops.sysRead h fd len).isSome)
    (hwrite : ∀ h fd buf, (ops.sysWrite h fd buf).isSome) :
    ∃ (N : Nat) (w' : World H) (es : List HostEvent),
      (∀ m : Nat,
        Execute ops (Yan85CatFile p (addr : Int)) (N + m) initVM (World.start h0)
          = Result.exited 0 w') ∧
      w'.trace = HostEvent.open (p.map toByte) :: es := by
  obtain ⟨vmS, hrun, hI, hA, hM, hZ⟩ :=
    catfile_state_before_syscall ops (World.start h0) p addr hlen haddr
  have hget : (Yan85CatFile p (addr : Int)).get? vmS.RegI.val.val =
      some ⟨InstSys, SysOpen, Byte2RegA⟩ := by
    have hL : (catfileStraight p (addr : Int)).length = 3 * p.length + 6 := by
      have hlen0 : (p ++ [0]).length = p.length + 1 := by simp
      rw [catfileStraight, List.length_append, List.length_append, Yan85CatFile.loop_length,
        hlen0]
      simp only [List.length_cons, List.length_nil]
      omega
    rw [hI, Yan85CatFile_split, List.get?_eq_getElem?,
      List.getElem?_append_right (by rw [hL]), hL, Nat.sub_self]
    rfl
  have hAr : GetReg Byte2RegA = RegName.A := by decide
  obtain ⟨⟨fd, h1⟩, eopen⟩ := Option.isSome_iff_exists.mp (hopen (World.start h0).host)
  have hopen' : sys_open ops RegName.A
      (vmS.setVal RegName.I (toByte (vmS.RegI.val.val + 1))) (World.start h0) =
      Result.running ((vmS.setVal RegName.I (toByte (vmS.RegI.val.val + 1))).setVal RegName.A
        (toByte fd)) ((World.start h0).emit (HostEvent.open (p.map toByte)) h1) := by
    rw [sys_open_of_written_path ops RegName.A
      (vmS.setVal RegName.I (toByte (vmS.RegI.val.val + 1))) (World.start h0) p addr hp haddr
      hA hM hZ, eopen]
  obtain ⟨w', es, hexit, htrace⟩ := sys_blocks_after_open_exit_zero ops hread hwrite
    ((vmS.setVal RegName.I (toByte (vmS.RegI.val.val + 1))).setVal RegName.A (toByte fd))
    ((World.start h0).emit (HostEvent.open (p.map toByte)) h1)
  have hcycle : Execute.cycle ops (Yan85CatFile p (addr : Int)) vmS (World.start h0) =
      Result.exited 0 w' := by
    rw [Execute.cycle_of_get? ops _ vmS _ _ hget,
      Interpret_sys_of_constant ops _ _ SysOpen Byte2RegA (by decide), hAr, hopen']
    exact hexit
  refine ⟨3 * p.length + 7, w', es, ?_, ?_⟩
  · intro m
    rw [show 3 * p.length + 7 + m = (3 * p.length + 6) + (m + 1) by omega, Execute_add, hrun]
    simp only [Result.andThen, Execute, hcycle]
  · rw [htrace]
    rfl

end GoYan85
